import Mathlib

/-!
Shallow embedding of the field-normalization core of `csv-ingest-tool.py`
(DateExtractor, MonthNameResolver, DescriptionExtractor, ExtentFormSplitter,
HtmlTextCleaner, RecordNormalizer) and proofs about the claims of the
specification.  Text is modelled as `List Char`; Python regular expressions
are embedded as explicit backtracking matchers that mirror the leftmost,
greedy/lazy semantics of the `re` module on the concrete patterns the
source uses; a Python exception is modelled as `Option.none`.  Character
classes follow the ASCII behaviour of the source patterns (`\d`, `[a-zA-Z]`)
plus the Unicode whitespace set for `\s` and `str.strip`.
-/

/-- ASCII decimal digit, the characters matched by `\d` on this data. -/
def isDig (c : Char) : Bool := decide (48 ≤ c.toNat ∧ c.toNat ≤ 57)

/-- Numeric value of a digit character. -/
def dv (c : Char) : Nat := c.toNat - 48

/-- The digit character of a value below ten. -/
def dch (d : Nat) : Char := Char.ofNat (48 + d)

/-- Code points of the whitespace characters recognised by Python's `\s`
and `str.strip` (ASCII control whitespace, NEL, NBSP and the Unicode
space separators). -/
def wsNats : List Nat :=
  [9, 10, 11, 12, 13, 28, 29, 30, 31, 32, 133, 160, 5760, 8192, 8193, 8194,
   8195, 8196, 8197, 8198, 8199, 8200, 8201, 8202, 8232, 8233, 8239, 8287, 12288]

/-- Whitespace test mirroring Python's `\s` / `str.strip`. -/
def isWsC (c : Char) : Bool := decide (c.toNat ∈ wsNats)

/-- The class `[a-zA-Z]`. -/
def isAlphaC (c : Char) : Bool :=
  decide ((65 ≤ c.toNat ∧ c.toNat ≤ 90) ∨ (97 ≤ c.toNat ∧ c.toNat ≤ 122))

/-- ASCII lowercasing, as `str.lower` acts on this data. -/
def lowerC (c : Char) : Char :=
  if 65 ≤ c.toNat ∧ c.toNat ≤ 90 then Char.ofNat (c.toNat + 32) else c

/-- Trailing-deletion: removes the maximal trailing run of characters
satisfying `p` (the right half of `str.strip`). -/
def dropEndWhile (p : Char → Bool) : List Char → List Char
  | [] => []
  | c :: r =>
    let r' := dropEndWhile p r
    if r' = [] ∧ p c then [] else c :: r'

/-- Python's `str.strip()`: remove leading and trailing whitespace. -/
def pyStrip (l : List Char) : List Char := dropEndWhile isWsC (l.dropWhile isWsC)

/-- Python's `str.strip(".")`: remove leading and trailing periods. -/
def stripDots (l : List Char) : List Char :=
  dropEndWhile (fun c => decide (c = '.')) (l.dropWhile (fun c => decide (c = '.')))

/-- Python's `sep.join`, for a one-character separator. -/
def joinWith (sep : Char) : List (List Char) → List Char
  | [] => []
  | [x] => x
  | x :: y :: xs => x ++ sep :: joinWith sep (y :: xs)

/-- `re.sub(r"\[|\]|\(|\)|\?|ca\.?|c\.?", "", ·)`: left-to-right scan deleting
brackets, question marks, and `ca`/`c` each with an optional following
period (the ordered alternation prefers `ca` over `c` at a position). -/
def cleanSub : List Char → List Char
  | [] => []
  | c :: r =>
    if c = '[' ∨ c = ']' ∨ c = '(' ∨ c = ')' ∨ c = '?' then cleanSub r
    else if c = 'c' then
      match r with
      | [] => []
      | c2 :: r2 =>
        if c2 = 'a' then
          match r2 with
          | [] => []
          | c3 :: r3 => if c3 = '.' then cleanSub r3 else cleanSub (c3 :: r3)
        else if c2 = '.' then cleanSub r2
        else cleanSub (c2 :: r2)
    else c :: cleanSub r

/-- `re.search` position loop: try the matcher at every suffix, leftmost
success wins (the empty suffix included, as `re` does). -/
def search (m : List Char → Option α) : List Char → Option α
  | [] => m []
  | c :: r => (m (c :: r)).orElse fun _ => search m r

/-- `\d{4}` at a position: exactly four digit characters and their value. -/
def digits4 : List Char → Option (Nat × List Char)
  | a :: b :: c :: d :: r =>
    if isDig a && isDig b && isDig c && isDig d then
      some (1000 * dv a + 100 * dv b + 10 * dv c + dv d, r)
    else none
  | _ => none

/-- `\d{2}` at a position. -/
def digits2 : List Char → Option (Nat × List Char)
  | a :: b :: r => if isDig a && isDig b then some (10 * dv a + dv b, r) else none
  | _ => none

/-- `\d{1}` at a position. -/
def digits1 : List Char → Option (Nat × List Char)
  | a :: r => if isDig a then some (dv a, r) else none
  | _ => none

/-- The separator class `[\./\- ]` of the full-date pattern. -/
def sepP : List Char → Option (List Char)
  | c :: r => if c = '.' ∨ c = '/' ∨ c = '-' ∨ c = ' ' then some r else none
  | [] => none

/-- Final `\d{1,2}` (greedy, no trailing constraint): the day value. -/
def dayV (l : List Char) : Option Nat :=
  match digits2 l with
  | some (d, _) => some d
  | none => (digits1 l).map (·.1)

/-- `\d{1,2}[\./\- ]\d{1,2}` with greedy backtracking on the month width. -/
def mdTail (l : List Char) : Option (Nat × Nat) :=
  (do
    let (m, r1) ← digits2 l
    let r2 ← sepP r1
    let d ← dayV r2
    pure (m, d)).orElse fun _ =>
  do
    let (m, r1) ← digits1 l
    let r2 ← sepP r1
    let d ← dayV r2
    pure (m, d)

/-- The full-date pattern `(\d{4})[\./\- ](\d{1,2})[\./\- ](\d{1,2})`
tried at one position. -/
def fullDateAt (l : List Char) : Option (Nat × Nat × Nat) := do
  let (y, r1) ← digits4 l
  let r2 ← sepP r1
  let (m, d) ← mdTail r2
  pure (y, m, d)

/-- `re.search` of the full-date pattern. -/
def fullDateSearch : List Char → Option (Nat × Nat × Nat) := search fullDateAt

/-- Literal-string match, returning the rest on success. -/
def litP : List Char → List Char → Option (List Char)
  | [], l => some l
  | p :: ps, c :: r => if c = p then litP ps r else none
  | _ :: _, [] => none

/-- Negation of the digit class: `\D`. -/
def nonDig (c : Char) : Bool := !(isDig c)

/-- The connector alternation `(?:and|-|to)`, tried in that order. -/
def connP (l : List Char) : Option (List Char) :=
  (litP ['a', 'n', 'd'] l).orElse fun _ =>
  (litP ['-'] l).orElse fun _ =>
  litP ['t', 'o'] l

/-- After the connector: `\D+(\d{4})` (the greedy run of non-digits is
deterministic because it must end exactly at the next digit). -/
def afterConn (l : List Char) : Option Nat :=
  match l with
  | c :: r =>
    if nonDig c then (digits4 ((c :: r).dropWhile nonDig)).map (·.1) else none
  | [] => none

/-- Greedy backtracking of the first `\D+` of the year-range pattern: try
the longest prefix of the non-digit run first, down to length one. -/
def rangeTryK (l : List Char) : Nat → Option Nat
  | 0 => none
  | k + 1 =>
    ((connP (l.drop (k + 1))).bind afterConn).orElse fun _ => rangeTryK l k

/-- `(\d{4})\D+(?:and|-|to)\D+(\d{4})` at one position. -/
def rangeCore (l : List Char) : Option (Nat × Nat) := do
  let (y1, r1) ← digits4 l
  let y2 ← rangeTryK r1 (r1.takeWhile nonDig).length
  pure (y1, y2)

/-- The year-range pattern `(?:between\s+)?(\d{4})\D+(?:and|-|to)\D+(\d{4})`
at one position: the optional `between\s+` prefix is tried first. -/
def rangeAt (l : List Char) : Option (Nat × Nat) :=
  (match litP ['b', 'e', 't', 'w', 'e', 'e', 'n'] l with
   | some r0 =>
     if (r0.takeWhile isWsC).isEmpty then none
     else rangeCore (r0.dropWhile isWsC)
   | none => none).orElse fun _ => rangeCore l

/-- `re.search` of the year-range pattern. -/
def rangeSearch : List Char → Option (Nat × Nat) := search rangeAt

/-- The separator class `[\s.,]` of the year-month pattern. -/
def ymClass (c : Char) : Bool := isWsC c || decide (c = '.') || decide (c = ',')

/-- First alternative `(?P<year>\d{4})[\s.,]*(?P<monthname>[a-zA-Z]+)`. -/
def alt1 (l : List Char) : Option (Nat × List Char) := do
  let (y, r1) ← digits4 l
  if ((r1.dropWhile ymClass).takeWhile isAlphaC).isEmpty then none
  else pure (y, (r1.dropWhile ymClass).takeWhile isAlphaC)

/-- Second alternative `(?P<monthname2>[a-zA-Z]+)[\s.,]*(?P<year2>\d{4})`. -/
def alt2 (l : List Char) : Option (Nat × List Char) :=
  if (l.takeWhile isAlphaC).isEmpty then none
  else
    (digits4 ((l.dropWhile isAlphaC).dropWhile ymClass)).map fun p =>
      (p.1, l.takeWhile isAlphaC)

/-- The year-month alternation at one position, first alternative preferred. -/
def ymAt (l : List Char) : Option (Nat × List Char) :=
  (alt1 l).orElse fun _ => alt2 l

/-- `re.search` of the year-month pattern; yields the year and the month token. -/
def ymSearch : List Char → Option (Nat × List Char) := search ymAt

/-- `(\d{4})` at one position: the bare-year pattern. -/
def yearAt (l : List Char) : Option Nat := (digits4 l).map (·.1)

/-- `re.search` of the bare-year pattern. -/
def yearSearch : List Char → Option Nat := search yearAt

/-- The static month-name table of `month_name_to_number` (the keys with a
trailing period are kept from the source even though the strip makes them
unreachable). -/
def monthTable : List (List Char × Nat) :=
  [("jan".data, 1), ("jan.".data, 1), ("january".data, 1),
   ("feb".data, 2), ("feb.".data, 2), ("february".data, 2),
   ("mar".data, 3), ("mar.".data, 3), ("march".data, 3),
   ("apr".data, 4), ("apr.".data, 4), ("april".data, 4),
   ("may".data, 5),
   ("jun".data, 6), ("jun.".data, 6), ("june".data, 6),
   ("jul".data, 7), ("jul.".data, 7), ("july".data, 7),
   ("aug".data, 8), ("aug.".data, 8), ("august".data, 8),
   ("sep".data, 9), ("sep.".data, 9), ("sept".data, 9), ("sept.".data, 9),
   ("september".data, 9),
   ("oct".data, 10), ("oct.".data, 10), ("october".data, 10),
   ("nov".data, 11), ("nov.".data, 11), ("november".data, 11),
   ("dec".data, 12), ("dec.".data, 12), ("december".data, 12)]

/-- `month_name_to_number`: strip periods from both ends, lowercase, and
look the token up; `none` models Python's `None`. -/
def monthNameToNumber (tok : List Char) : Option Nat :=
  ((monthTable.find? fun p => decide (p.1 = (stripDots tok).map lowerC)).map (·.2))

/-- `f"{n:04d}"`. -/
def format4 (n : Nat) : List Char :=
  if n ≤ 9999 then [dch (n / 1000 % 10), dch (n / 100 % 10), dch (n / 10 % 10), dch (n % 10)]
  else Nat.toDigits 10 n

/-- `f"{n:02d}"`. -/
def format2 (n : Nat) : List Char :=
  if n ≤ 99 then [dch (n / 10 % 10), dch (n % 10)] else Nat.toDigits 10 n

/-- One fragment of the `created_published` field: a plain string or a
nested sequence of strings. -/
inductive Frag where
  | str (s : String)
  | lst (l : List String)
deriving DecidableEq

/-- Whether a fragment is a nested sequence (`isinstance(i, list)`). -/
def Frag.isLst : Frag → Bool
  | .str _ => false
  | .lst _ => true

/-- The first nested-sequence fragment of the container, if any
(`[i for i in container if isinstance(i, list)][0]`). -/
def firstLst : List Frag → Option (List String)
  | [] => none
  | .lst l :: _ => some l
  | .str _ :: r => firstLst r

/-- The text-selection step of `extract_dates`; `none` models the
`IndexError`/`AttributeError` the Python selection can raise. -/
def selectText (c : List Frag) : Option (List Char) :=
  if c.length > 1 then
    match firstLst c with
    | some l => l.head?.map String.data
    | none => none
  else
    match c with
    | [.str s] => some s.data
    | _ => none

/-- Lowercasing, circa/bracket deletion and strip applied by `extract_dates`
before the parsing cascade. -/
def cleanOf (t : List Char) : List Char := pyStrip (cleanSub (t.map lowerC))

/-- The parsing cascade of `extract_dates` on the cleaned text: full date,
year range, year-month, bare year, empty string. -/
def extractCore (t : List Char) : List Char :=
  match fullDateSearch t with
  | some (y, m, d) => format4 y ++ '-' :: (format2 m ++ '-' :: format2 d)
  | none =>
    match rangeSearch t with
    | some (y1, y2) => format4 y1 ++ '/' :: format4 y2
    | none =>
      match ymSearch t with
      | some (y, tok) =>
        match monthNameToNumber tok with
        | some m => format4 y ++ '-' :: format2 m
        | none => format4 y
      | none =>
        match yearSearch t with
        | some y => format4 y
        | none => []

/-- `extract_dates`; `none` models an uncaught exception. -/
def extractDates (c : List Frag) : Option String :=
  (selectText c).map fun t => String.mk (extractCore (cleanOf t))

/-- Membership of a character in a string (Python's `":" in s`). -/
def containsChar (ch : Char) (l : List Char) : Bool := l.contains ch

/-- `$` of a non-multiline pattern after a greedy `(.*)`: succeeds when the
remainder is empty or a single final newline, capturing the non-newline run. -/
def part3 (r : List Char) : Option (List Char) :=
  let r1 := r.dropWhile isWsC
  let g3 := r1.takeWhile fun c => !(c = '\n')
  let rest := r1.dropWhile fun c => !(c = '\n')
  if rest = [] ∨ rest = ['\n'] then some g3 else none

/-- The lazy `(.*?)\s*;\s*(.*)$` loop: at each growth step of the second
group try the greedy whitespace run and a semicolon, then the tail. -/
def p23 (acc : List Char) (rest : List Char) : Option (List Char × List Char)
  :=
  (match rest.dropWhile isWsC with
   | c :: r3 =>
     if c = ';' then (part3 r3).map fun g3 => (acc.reverse, g3) else none
   | [] => none).orElse fun _ =>
  match rest with
  | c :: r => if c = '\n' then none else p23 (c :: acc) r
  | [] => none

/-- The anchored match `^(.*?)\s*:\s*(.*?)\s*;\s*(.*)$`: lazy growth of the
first group, then the colon, then the `p23` loop. -/
def g1run (acc : List Char) (rest : List Char) :
    Option (List Char × List Char × List Char) :=
  (match rest.dropWhile isWsC with
   | c :: r2 =>
     if c = ':' then
       (p23 [] (r2.dropWhile isWsC)).map fun p => (acc.reverse, p)
     else none
   | [] => none).orElse fun _ =>
  match rest with
  | c :: r => if c = '\n' then none else g1run (c :: acc) r
  | [] => none

/-- `re.match(r"^(.*?)\s*:\s*(.*?)\s*;\s*(.*)$", ·)`, the three groups. -/
def m3 (s : List Char) : Option (List Char × List Char × List Char) :=
  g1run [] s

/-- Python's `split(" : ")` specialised to the three-character separator. -/
def splitColonGo (acc : List Char) : List Char → List (List Char)
  | ' ' :: ':' :: ' ' :: r => acc.reverse :: splitColonGo [] r
  | c :: r => splitColonGo (c :: acc) r
  | [] => [acc.reverse]

/-- `s.split(" : ")`. -/
def splitColon3 (l : List Char) : List (List Char) := splitColonGo [] l

/-- `determine_extent_form`; `none` models the `AttributeError` of a failed
regex match and the `ValueError` of a mis-sized unpack. -/
def determineExtentForm (c : List String) : Option (String × String) :=
  match c with
  | [] => none
  | [s] =>
    if containsChar ':' s.data && containsChar ';' s.data then
      match m3 s.data with
      | some (g1, g2, g3) =>
        some (String.mk (pyStrip g1 ++ '|' :: pyStrip g3), String.mk (pyStrip g2))
      | none => none
    else if containsChar ':' s.data then
      match splitColon3 s.data with
      | [a, b] => some (String.mk (pyStrip a), String.mk (pyStrip b))
      | _ => none
    else some (String.mk (pyStrip s.data), "")
  | _ => some (String.mk (joinWith '|' (c.map fun s => pyStrip s.data)), "")

/-- The pattern `\. \| (.+)` at one position: the literal marker, then a
greedy non-empty run of non-newline characters. -/
def descAt (l : List Char) : Option (List Char) :=
  match l with
  | a :: b :: c :: d :: r =>
    if a = '.' ∧ b = ' ' ∧ c = '|' ∧ d = ' ' then
      if (r.takeWhile fun x => !(x = '\n')).isEmpty then none
      else some (r.takeWhile fun x => !(x = '\n'))
    else none
  | _ => none

/-- `re.search(r"\. \| (.+)", ·)`. -/
def searchDesc : List Char → Option (List Char) := search descAt

/-- `extract_description`. -/
def extractDescription (d : String) (notes : List String) : String :=
  match searchDesc d.data with
  | some cap => String.mk cap
  | none => String.mk (joinWith ' ' (notes.map String.data))

/-- `<[^>]+>` at a `<`: the greedy non-empty run of non-`>` characters and
the closing `>`; returns the rest after the tag. -/
def findTagEnd (r : List Char) : Option (List Char) :=
  match r.dropWhile (fun c => !(c = '>')) with
  | _ :: rest =>
    if (r.takeWhile fun c => !(c = '>')).isEmpty then none else some rest
  | [] => none

/-- The tag-removal scan, structurally recursive on a fuel bounded by the
length of the text (each step consumes at least one character, so the
initial fuel is never exhausted). -/
def removeTagsF : Nat → List Char → List Char
  | 0, _ => []
  | _ + 1, [] => []
  | f + 1, c :: r =>
    if c = '<' then
      match findTagEnd r with
      | some rest => ' ' :: removeTagsF f rest
      | none => c :: removeTagsF f r
    else c :: removeTagsF f r

/-- `re.sub(r"<[^>]+>", " ", ·)`: replace each tag-shaped substring by a
single space, scanning left to right. -/
def removeTags (l : List Char) : List Char := removeTagsF l.length l

/-- Named character references handled by the model of Python's
`html.unescape` (the stdlib decodes the full HTML5 entity table; the
records of this repository only exercise these common names). -/
def entityTable : List (List Char × Char) :=
  [("amp;".data, '&'), ("lt;".data, '<'), ("gt;".data, '>'),
   ("quot;".data, '"'), ("apos;".data, '\''), ("nbsp;".data, Char.ofNat 160)]

/-- Try each entity name of a table at the position after a `&`. -/
def entityFind : List (List Char × Char) → List Char → Option (Char × List Char)
  | [], _ => none
  | (p, ch) :: t, r =>
    match litP p r with
    | some rest => some (ch, rest)
    | none => entityFind t r

/-- The reference lookup after a `&`. -/
def entityAt (r : List Char) : Option (Char × List Char) :=
  entityFind entityTable r

/-- The unescape scan, structurally recursive on a fuel bounded by the
length of the text (each step consumes at least one character). -/
def unescapeF : Nat → List Char → List Char
  | 0, _ => []
  | _ + 1, [] => []
  | f + 1, c :: r =>
    if c = '&' then
      match entityAt r with
      | some (ch, rest) => ch :: unescapeF f rest
      | none => '&' :: unescapeF f r
    else c :: unescapeF f r

/-- The model of Python's `html.unescape` over the table of `entityAt`. -/
def unescapeModel (l : List Char) : List Char := unescapeF l.length l

/-- `re.sub(r"\s+", " ", ·)`: collapse each maximal whitespace run to one
space (the flag records whether the previous character was whitespace). -/
def collapseGo (prevWs : Bool) : List Char → List Char
  | [] => []
  | c :: r =>
    if isWsC c then
      if prevWs then collapseGo true r else ' ' :: collapseGo true r
    else c :: collapseGo false r

/-- `clean_html_text`: empty input yields the empty string, otherwise the
first element is stripped of tags, entity-decoded, collapsed and stripped. -/
def cleanHtmlText (l : List String) : String :=
  match l with
  | [] => ""
  | h :: _ =>
    String.mk (pyStrip (collapseGo false (unescapeModel (removeTags h.data))))

/-- A raw record as consumed by the normalization body of `main` (the
fields read via `.get`; `none` models an absent key).  The nested
`item.control_number` is flattened into `item_control_number`. -/
structure RawRecord where
  title : Option String := none
  created_published : Option (List Frag) := none
  description : Option (List String) := none
  notes : Option (List String) := none
  contributor_names : Option (List String) := none
  medium : Option (List String) := none
  subject_headings : Option (List String) := none
  language : Option (List String) := none
  mime_type : Option (List String) := none
  rights : Option (List String) := none
  rights_advisory : Option String := none
  rights_information : Option String := none
  link : Option String := none
  lccn : Option String := none
  item_control_number : Option String := none
deriving DecidableEq

/-- The normalized output row (the record-level fields computed purely
from the record; `item_type` is the constant, while the upload date and
source-file reference depend on the run environment and are outside the
pure normalization modelled here). -/
structure NormalizedRow where
  item_type : String
  title : String
  created : String
  description : String
  contributor : String
  controlNumber : String
  locationUrl : String
  mediaType : String
  physicalExtent : String
  physicalForm : String
  subject : String
  language : String
  accessCondition : String
  rights : String
deriving DecidableEq

/-- Python's `a or b` for two strings (empty is falsy). -/
def pyOrS (a b : String) : String := if a = "" then b else a

/-- Python's `a or b` where `a` is `d.get(k)` (absent gives `None`). -/
def pyOrOptS (a : Option String) (b : String) : String :=
  match a with
  | some s => pyOrS s b
  | none => b

/-- The fixed rights fallback sentence of the source. -/
def rightsFallback : String :=
  "See Access Condition or item source for rights information."

/-- The per-record normalization body of `main` (`RecordNormalizer`);
`none` models an exception escaping the field computations. -/
def recordNormalizer (r : RawRecord) : Option NormalizedRow := do
  let created ← extractDates (r.created_published.getD [Frag.str ""])
  let d0 ← (r.description.getD [""]).head?
  let ef ← determineExtentForm (r.medium.getD [""])
  let lang ← (r.language.getD [""]).head?
  pure {
    item_type := "Item"
    title := r.title.getD ""
    created := created
    description := extractDescription d0 (r.notes.getD [""])
    contributor := String.mk (joinWith '|' ((r.contributor_names.getD [""]).map String.data))
    controlNumber := pyOrOptS r.item_control_number (r.lccn.getD "")
    locationUrl := r.link.getD ""
    mediaType := String.mk (joinWith '|' ((r.mime_type.getD [""]).map String.data))
    physicalExtent := ef.1
    physicalForm := ef.2
    subject := String.mk (joinWith '|' ((r.subject_headings.getD [""]).map fun s => pyStrip s.data))
    language := lang
    accessCondition := pyOrOptS r.rights_advisory (r.rights_information.getD "")
    rights := pyOrS (cleanHtmlText (r.rights.getD [])) rightsFallback
  }

/-- The raw record with every optional field absent. -/
def emptyRaw : RawRecord := {}

/-- A sample record whose rights field carries markup and an entity. -/
def rightsSample : RawRecord := { rights := some ["<p>Hello&nbsp;World</p>"] }

/-- The five canonical output shapes of `extract_dates`: empty, `YYYY`,
`YYYY-MM`, `YYYY/YYYY`, `YYYY-MM-DD` (digits ASCII, zero-padded widths). -/
def dateShape : List Char → Bool
  | [] => true
  | [a, b, c, d] => isDig a && isDig b && isDig c && isDig d
  | [a, b, c, d, s, e, f] =>
    isDig a && isDig b && isDig c && isDig d && decide (s = '-') &&
      isDig e && isDig f
  | [a, b, c, d, s, e, f, g, h] =>
    isDig a && isDig b && isDig c && isDig d && decide (s = '/') &&
      isDig e && isDig f && isDig g && isDig h
  | [a, b, c, d, s1, e, f, s2, g, h] =>
    isDig a && isDig b && isDig c && isDig d && decide (s1 = '-') &&
      isDig e && isDig f && decide (s2 = '-') && isDig g && isDig h
  | _ => false

/-- The head (if any) does not satisfy `p`. -/
def headNot (p : Char → Bool) : List Char → Prop
  | [] => True
  | c :: _ => p c = false

/-- The last element (if any) does not satisfy `p`. -/
def lastNot (p : Char → Bool) (l : List Char) : Prop :=
  match l.getLast? with
  | none => True
  | some c => p c = false

/-- The inputs on which `determine_extent_form` completes without an
exception: several elements; or a single element without colon; or a single
element whose colon/semicolon shape lets the three-group regex match; or a
single element with a colon, no semicolon, and exactly one `" : "`. -/
def extentOk : List String → Bool
  | [] => false
  | [s] =>
    if containsChar ':' s.data && containsChar ';' s.data then (m3 s.data).isSome
    else if containsChar ':' s.data then decide ((splitColon3 s.data).length = 2)
    else true
  | _ :: _ :: _ => true

/-- The row produced for `rightsSample` (rights cleaned from markup,
everything else defaulted). -/
def sampleRow : NormalizedRow :=
  { item_type := "Item", title := "", created := "", description := "",
    contributor := "", controlNumber := "", locationUrl := "", mediaType := "",
    physicalExtent := "", physicalForm := "", subject := "", language := "",
    accessCondition := "", rights := "Hello World" }

/-- Characters surviving the cleaning pass unchanged in the canonical
shapes: digits, hyphen, slash. -/
def plainC (c : Char) : Prop := isDig c = true ∨ c = '-' ∨ c = '/'

/-- A suffix shape over the digit block `[a, b, c, d]`: a run of
non-digits followed by the block, or a proper suffix of the block. -/
def NBlock (a b c d : Char) (u : List Char) : Prop :=
  ∃ p q, u = p ++ q ∧ (∀ x ∈ p, isDig x = false) ∧ q <:+ [a, b, c, d]

/-!
Proof development: structural lemmas about the embedded operations,
followed by the claim theorems with their witnesses and counterexamples.
-/

/-- Dropping a prefix run never lengthens a list. -/
theorem dropWhile_length_le (p : Char → Bool) (l : List Char) :
    (l.dropWhile p).length ≤ l.length := by
  induction l with
  | nil => simp
  | cons c r ih =>
    rw [List.dropWhile_cons]
    by_cases h : p c = true
    · rw [if_pos h]; exact Nat.le_succ_of_le ih
    · rw [if_neg h]

/-- Length bound used for the termination of the tag-removal scan. -/
theorem findTagEnd_length {r rest : List Char} (h : findTagEnd r = some rest) :
    rest.length < r.length := by
  unfold findTagEnd at h
  split at h
  next c rs hd =>
    split at h
    · exact absurd h (by simp)
    · have h1 : (c :: rs).length ≤ r.length := by
        rw [← hd]; exact dropWhile_length_le _ r
      injection h with h2
      subst h2
      simp at h1
      omega
  next => exact absurd h (by simp)

/-- A successful literal match consumes exactly the literal's length. -/
theorem litP_length {p l r : List Char} (h : litP p l = some r) :
    r.length + p.length = l.length := by
  induction p generalizing l with
  | nil =>
    simp only [litP, Option.some.injEq] at h
    subst h; simp
  | cons x ps ih =>
    cases l with
    | nil => exact absurd h (by simp [litP])
    | cons c cs =>
      unfold litP at h
      by_cases hc : c = x
      · rw [if_pos hc] at h
        have := ih h
        simp only [List.length_cons]
        omega
      · rw [if_neg hc] at h
        exact absurd h (by simp)

/-- A successful entity lookup in a table of non-empty names shortens
the text. -/
theorem entityFind_length {tab : List (List Char × Char)} {r rest : List Char}
    {c : Char} (hne : ∀ e ∈ tab, e.1 ≠ [])
    (h : entityFind tab r = some (c, rest)) : rest.length < r.length := by
  induction tab with
  | nil => exact absurd h (by simp [entityFind])
  | cons e t ih =>
    obtain ⟨p, ch⟩ := e
    unfold entityFind at h
    cases hl : litP p r with
    | some rest2 =>
      rw [hl] at h
      injection h with h'
      injection h' with h1 h2
      subst h2
      have hlen := litP_length hl
      have hp : p ≠ [] := hne (p, ch) (by simp)
      have : 0 < p.length := List.length_pos.mpr hp
      omega
    | none =>
      rw [hl] at h
      exact ih (fun e he => hne e (List.mem_cons_of_mem _ he)) h

/-- Length bound used for the termination of the unescape scan. -/
theorem entityAt_length {r rest : List Char} {c : Char}
    (h : entityAt r = some (c, rest)) : rest.length < r.length :=
  entityFind_length (by decide) h

theorem isDig_iff {c : Char} : isDig c = true ↔ 48 ≤ c.toNat ∧ c.toNat ≤ 57 := by
  simp [isDig]

theorem dv_lt {c : Char} (h : isDig c = true) : dv c < 10 := by
  rw [isDig_iff] at h
  unfold dv
  omega

theorem dig_ne {c x : Char} (h : isDig c = true)
    (hx : x.toNat < 48 ∨ 57 < x.toNat) : c ≠ x := by
  intro he
  subst he
  rw [isDig_iff] at h
  omega

theorem dch_toNat {d : Nat} (h : d < 10) : (dch d).toNat = 48 + d := by
  interval_cases d <;> decide

theorem isDig_dch {d : Nat} (h : d < 10) : isDig (dch d) = true := by
  interval_cases d <;> decide

theorem dch_dv {c : Char} (h : isDig c = true) : dch (dv c) = c := by
  rw [isDig_iff] at h
  unfold dch dv
  have h1 : 48 + (c.toNat - 48) = c.toNat := by omega
  rw [h1]
  exact Char.ofNat_toNat c

theorem not_isWsC_of_dig {c : Char} (h : isDig c = true) : isWsC c = false := by
  rw [isDig_iff] at h
  simp [isWsC, wsNats]
  omega

theorem not_isAlphaC_of_dig {c : Char} (h : isDig c = true) : isAlphaC c = false := by
  rw [isDig_iff] at h
  simp [isAlphaC]
  omega

theorem lowerC_dig {c : Char} (h : isDig c = true) : lowerC c = c := by
  rw [isDig_iff] at h
  unfold lowerC
  rw [if_neg (by omega)]

theorem nonDig_dig {c : Char} (h : isDig c = true) : nonDig c = false := by
  simp [nonDig, h]

theorem ymClass_dig {c : Char} (h : isDig c = true) : ymClass c = false := by
  have h1 := not_isWsC_of_dig h
  have h2 : c ≠ '.' := dig_ne h (by decide)
  have h3 : c ≠ ',' := dig_ne h (by decide)
  simp [ymClass, h1, h2, h3]

theorem parse4_lt {a b c d : Char} (ha : isDig a = true) (hb : isDig b = true)
    (hc : isDig c = true) (hd : isDig d = true) :
    1000 * dv a + 100 * dv b + 10 * dv c + dv d < 10000 := by
  have := dv_lt ha; have := dv_lt hb; have := dv_lt hc; have := dv_lt hd
  omega

theorem format4_parse {a b c d : Char} (ha : isDig a = true) (hb : isDig b = true)
    (hc : isDig c = true) (hd : isDig d = true) :
    format4 (1000 * dv a + 100 * dv b + 10 * dv c + dv d) = [a, b, c, d] := by
  have h1 := dv_lt ha; have h2 := dv_lt hb; have h3 := dv_lt hc; have h4 := dv_lt hd
  unfold format4
  rw [if_pos (by omega)]
  have e1 : (1000 * dv a + 100 * dv b + 10 * dv c + dv d) / 1000 % 10 = dv a := by omega
  have e2 : (1000 * dv a + 100 * dv b + 10 * dv c + dv d) / 100 % 10 = dv b := by omega
  have e3 : (1000 * dv a + 100 * dv b + 10 * dv c + dv d) / 10 % 10 = dv c := by omega
  have e4 : (1000 * dv a + 100 * dv b + 10 * dv c + dv d) % 10 = dv d := by omega
  rw [e1, e2, e3, e4, dch_dv ha, dch_dv hb, dch_dv hc, dch_dv hd]

theorem format2_parse {a b : Char} (ha : isDig a = true) (hb : isDig b = true) :
    format2 (10 * dv a + dv b) = [a, b] := by
  have h1 := dv_lt ha; have h2 := dv_lt hb
  unfold format2
  rw [if_pos (by omega)]
  have e1 : (10 * dv a + dv b) / 10 % 10 = dv a := by omega
  have e2 : (10 * dv a + dv b) % 10 = dv b := by omega
  rw [e1, e2, dch_dv ha, dch_dv hb]

theorem format4_digits {n : Nat} (h : n < 10000) :
    ∃ a b c d, format4 n = [a, b, c, d] ∧ isDig a = true ∧ isDig b = true ∧
      isDig c = true ∧ isDig d = true := by
  refine ⟨dch (n / 1000 % 10), dch (n / 100 % 10), dch (n / 10 % 10), dch (n % 10),
    ?_, isDig_dch (by omega), isDig_dch (by omega), isDig_dch (by omega), isDig_dch (by omega)⟩
  unfold format4
  rw [if_pos (by omega)]

theorem format2_digits {n : Nat} (h : n < 100) :
    ∃ a b, format2 n = [a, b] ∧ isDig a = true ∧ isDig b = true := by
  refine ⟨dch (n / 10 % 10), dch (n % 10), ?_, isDig_dch (by omega), isDig_dch (by omega)⟩
  unfold format2
  rw [if_pos (by omega)]

theorem orElse_eq_none_iff {α : Type} {a : Option α} {f : Unit → Option α} :
    a.orElse f = none ↔ a = none ∧ f () = none := by
  cases a <;> simp [Option.orElse]

theorem orElse_eq_some_elim {α : Type} {a : Option α} {f : Unit → Option α}
    {v : α} (h : a.orElse f = some v) :
    a = some v ∨ (a = none ∧ f () = some v) := by
  cases a with
  | none => right; exact ⟨rfl, h⟩
  | some w => left; exact h

/-- A failed search means the matcher fails at every suffix. -/
theorem search_eq_none {α : Type} {m : List Char → Option α} {l : List Char}
    (h : search m l = none) : ∀ u, u <:+ l → m u = none := by
  induction l with
  | nil =>
    intro u hu
    rw [List.suffix_nil.mp hu]
    exact h
  | cons c r ih =>
    unfold search at h
    obtain ⟨h1, h2⟩ := orElse_eq_none_iff.mp h
    intro u hu
    rcases List.suffix_cons_iff.mp hu with he | hr
    · rw [he]; exact h1
    · exact ih h2 u hr

/-- A successful search succeeds at some suffix. -/
theorem search_eq_some {α : Type} {m : List Char → Option α} {l : List Char}
    {v : α} (h : search m l = some v) : ∃ u, u <:+ l ∧ m u = some v := by
  induction l with
  | nil => exact ⟨[], List.nil_suffix, h⟩
  | cons c r ih =>
    unfold search at h
    rcases orElse_eq_some_elim h with h1 | ⟨_, h2⟩
    · exact ⟨c :: r, List.suffix_refl _, h1⟩
    · obtain ⟨u, hu, hm⟩ := ih h2
      exact ⟨u, hu.trans (List.suffix_cons c r), hm⟩

/-- Any invariant of the matcher's results is an invariant of the search. -/
theorem search_result {α : Type} {m : List Char → Option α} {P : α → Prop}
    (hm : ∀ l v, m l = some v → P v) {l : List Char} {v : α}
    (h : search m l = some v) : P v := by
  obtain ⟨u, _, hu⟩ := search_eq_some h
  exact hm u v hu

theorem digits4_elim {l : List Char} {n : Nat} {r : List Char}
    (h : digits4 l = some (n, r)) :
    ∃ a b c d, l = a :: b :: c :: d :: r ∧ isDig a = true ∧ isDig b = true ∧
      isDig c = true ∧ isDig d = true ∧
      n = 1000 * dv a + 100 * dv b + 10 * dv c + dv d := by
  unfold digits4 at h
  split at h
  next a b c d r' =>
    split at h
    next hcond =>
      simp only [Bool.and_eq_true] at hcond
      injection h with h'
      injection h' with hn hr
      subst hr
      exact ⟨a, b, c, d, rfl, hcond.1.1.1, hcond.1.1.2, hcond.1.2, hcond.2, hn.symm⟩
    next => exact absurd h (by simp)
  next => exact absurd h (by simp)

theorem digits4_lt {l : List Char} {n : Nat} {r : List Char}
    (h : digits4 l = some (n, r)) : n < 10000 := by
  obtain ⟨a, b, c, d, _, ha, hb, hc, hd, hn⟩ := digits4_elim h
  subst hn
  exact parse4_lt ha hb hc hd

theorem digits2_lt {l : List Char} {n : Nat} {r : List Char}
    (h : digits2 l = some (n, r)) : n < 100 := by
  unfold digits2 at h
  split at h
  next a b r' =>
    split at h
    next hcond =>
      simp only [Bool.and_eq_true] at hcond
      injection h with h'
      injection h' with hn hr
      have := dv_lt hcond.1
      have := dv_lt hcond.2
      omega
    next => exact absurd h (by simp)
  next => exact absurd h (by simp)

theorem digits1_lt {l : List Char} {n : Nat} {r : List Char}
    (h : digits1 l = some (n, r)) : n < 10 := by
  unfold digits1 at h
  split at h
  next a r' =>
    split at h
    next hcond =>
      injection h with h'
      injection h' with hn hr
      have := dv_lt hcond
      omega
    next => exact absurd h (by simp)
  next => exact absurd h (by simp)

theorem dayV_lt {l : List Char} {n : Nat} (h : dayV l = some n) : n < 100 := by
  unfold dayV at h
  split at h
  next d r hd =>
    injection h with h'
    subst h'
    exact digits2_lt hd
  next hd =>
    rcases ho : digits1 l with _ | ⟨d, r⟩
    · rw [ho] at h; exact absurd h (by simp)
    · rw [ho] at h
      simp at h
      subst h
      have := digits1_lt ho
      omega

theorem mdTail_lt {l : List Char} {m d : Nat} (h : mdTail l = some (m, d)) :
    m < 100 ∧ d < 100 := by
  unfold mdTail at h
  rcases orElse_eq_some_elim h with h1 | ⟨_, h1⟩ <;>
    simp only [Option.pure_def, Option.bind_eq_bind, Option.bind_eq_some,
      Option.some.injEq, Prod.mk.injEq] at h1
  · obtain ⟨⟨mv, r1⟩, h2, r2, h3, dd, h4, hm, hd⟩ := h1
    subst hm; subst hd
    exact ⟨digits2_lt h2, dayV_lt h4⟩
  · obtain ⟨⟨mv, r1⟩, h2, r2, h3, dd, h4, hm, hd⟩ := h1
    subst hm; subst hd
    have := digits1_lt h2
    exact ⟨by omega, dayV_lt h4⟩

theorem fullDateAt_lt {l : List Char} {y m d : Nat}
    (h : fullDateAt l = some (y, m, d)) : y < 10000 ∧ m < 100 ∧ d < 100 := by
  unfold fullDateAt at h
  simp only [Option.pure_def, Option.bind_eq_bind, Option.bind_eq_some,
    Option.some.injEq, Prod.mk.injEq] at h
  obtain ⟨⟨yv, r1⟩, h2, r2, h3, ⟨mv, dd⟩, h4, hy, hm, hd⟩ := h
  subst hy; subst hm; subst hd
  exact ⟨digits4_lt h2, mdTail_lt h4⟩

theorem afterConn_lt {l : List Char} {y : Nat} (h : afterConn l = some y) :
    y < 10000 := by
  unfold afterConn at h
  split at h
  next c r =>
    split at h
    · rcases hd : digits4 ((c :: r).dropWhile nonDig) with _ | ⟨⟨yv, rr⟩⟩
      · rw [hd] at h; exact absurd h (by simp)
      · rw [hd] at h
        simp at h
        subst h
        exact digits4_lt hd
    · exact absurd h (by simp)
  next => exact absurd h (by simp)

theorem rangeTryK_lt {l : List Char} {k : Nat} {y : Nat}
    (h : rangeTryK l k = some y) : y < 10000 := by
  induction k with
  | zero => exact absurd h (by simp [rangeTryK])
  | succ k ih =>
    unfold rangeTryK at h
    rcases orElse_eq_some_elim h with h1 | ⟨_, h1⟩
    · rcases hc : connP (l.drop (k + 1)) with _ | r
      · rw [hc] at h1; exact absurd h1 (by simp)
      · rw [hc] at h1
        simp only [Option.some_bind] at h1
        exact afterConn_lt h1
    · exact ih h1

theorem rangeCore_lt {l : List Char} {y1 y2 : Nat}
    (h : rangeCore l = some (y1, y2)) : y1 < 10000 ∧ y2 < 10000 := by
  unfold rangeCore at h
  simp only [Option.pure_def, Option.bind_eq_bind, Option.bind_eq_some,
    Option.some.injEq, Prod.mk.injEq] at h
  obtain ⟨⟨yv, r1⟩, h2, yy, h3, hy1, hy2⟩ := h
  subst hy1; subst hy2
  exact ⟨digits4_lt h2, rangeTryK_lt h3⟩

theorem rangeAt_lt {l : List Char} {y1 y2 : Nat}
    (h : rangeAt l = some (y1, y2)) : y1 < 10000 ∧ y2 < 10000 := by
  unfold rangeAt at h
  rcases orElse_eq_some_elim h with h1 | ⟨_, h1⟩
  · split at h1
    next r0 hl =>
      split at h1
      · exact absurd h1 (by simp)
      · exact rangeCore_lt h1
    next => exact absurd h1 (by simp)
  · exact rangeCore_lt h1

theorem alt1_lt {l : List Char} {y : Nat} {tk : List Char}
    (h : alt1 l = some (y, tk)) : y < 10000 := by
  unfold alt1 at h
  simp only [Option.pure_def, Option.bind_eq_bind, Option.bind_eq_some] at h
  obtain ⟨⟨yv, r1⟩, h2, h3⟩ := h
  split at h3
  · exact absurd h3 (by simp)
  · simp at h3
    obtain ⟨hy, _⟩ := h3
    subst hy
    exact digits4_lt h2

theorem alt2_lt {l : List Char} {y : Nat} {tk : List Char}
    (h : alt2 l = some (y, tk)) : y < 10000 := by
  unfold alt2 at h
  split at h
  · exact absurd h (by simp)
  · rcases hd : digits4 ((l.dropWhile isAlphaC).dropWhile ymClass) with _ | ⟨⟨yv, rr⟩⟩
    · rw [hd] at h; exact absurd h (by simp)
    · rw [hd] at h
      simp at h
      obtain ⟨hy, _⟩ := h
      subst hy
      exact digits4_lt hd

theorem ymAt_lt {l : List Char} {y : Nat} {tk : List Char}
    (h : ymAt l = some (y, tk)) : y < 10000 := by
  unfold ymAt at h
  rcases orElse_eq_some_elim h with h1 | ⟨_, h1⟩
  · exact alt1_lt h1
  · exact alt2_lt h1

theorem yearAt_lt {l : List Char} {y : Nat} (h : yearAt l = some y) :
    y < 10000 := by
  unfold yearAt at h
  rcases hd : digits4 l with _ | ⟨⟨yv, rr⟩⟩
  · rw [hd] at h; exact absurd h (by simp)
  · rw [hd] at h
    simp at h
    subst h
    exact digits4_lt hd

theorem monthNameToNumber_bounds {tk : List Char} {m : Nat}
    (h : monthNameToNumber tk = some m) : 1 ≤ m ∧ m ≤ 12 := by
  unfold monthNameToNumber at h
  obtain ⟨e, he, hm⟩ := Option.map_eq_some'.mp h
  have hmem := List.mem_of_find?_eq_some he
  have hall : ∀ e ∈ monthTable, 1 ≤ e.2 ∧ e.2 ≤ 12 := by decide
  rw [← hm]
  exact hall e hmem

/-- Every value produced by the parsing cascade has one of the five shapes. -/
theorem extractCore_shape (l : List Char) : dateShape (extractCore l) = true := by
  unfold extractCore
  cases h1 : fullDateSearch l with
  | some v =>
    obtain ⟨y, m, d⟩ := v
    have hb : y < 10000 ∧ m < 100 ∧ d < 100 :=
      search_result (fun u v hv => fullDateAt_lt hv) h1
    obtain ⟨a, b, c, dd, hf, ha, hbb, hc, hd⟩ := format4_digits hb.1
    obtain ⟨e, f, hf2, he, hff⟩ := format2_digits hb.2.1
    obtain ⟨g, hh, hf3, hg, hhh⟩ := format2_digits hb.2.2
    simp [dateShape, hf, hf2, hf3, ha, hbb, hc, hd, he, hff, hg, hhh]
  | none =>
    cases h2 : rangeSearch l with
    | some v =>
      obtain ⟨y1, y2⟩ := v
      have hb : y1 < 10000 ∧ y2 < 10000 :=
        search_result (fun u v hv => rangeAt_lt hv) h2
      obtain ⟨a, b, c, d, hf, ha, hbb, hc, hd⟩ := format4_digits hb.1
      obtain ⟨e, f, g, hh, hf2, he, hff, hg, hhh⟩ := format4_digits hb.2
      simp [dateShape, hf, hf2, ha, hbb, hc, hd, he, hff, hg, hhh]
    | none =>
      cases h3 : ymSearch l with
      | some v =>
        obtain ⟨y, tk⟩ := v
        have hy : y < 10000 := search_result (fun u v hv => ymAt_lt hv) h3
        obtain ⟨a, b, c, d, hf, ha, hbb, hc, hd⟩ := format4_digits hy
        cases h4 : monthNameToNumber tk with
        | some m =>
          have hm := monthNameToNumber_bounds h4
          obtain ⟨e, f, hf2, he, hff⟩ := @format2_digits m (by omega)
          simp [dateShape, h4, hf, hf2, ha, hbb, hc, hd, he, hff]
        | none =>
          simp [dateShape, h4, hf, ha, hbb, hc, hd]
      | none =>
        cases h5 : yearSearch l with
        | some y =>
          have hy : y < 10000 := search_result (fun u v hv => yearAt_lt hv) h5
          obtain ⟨a, b, c, d, hf, ha, hbb, hc, hd⟩ := format4_digits hy
          simp [dateShape, hf, ha, hbb, hc, hd]
        | none => simp [dateShape]

theorem litP_suffix {p l r : List Char} (h : litP p l = some r) : r <:+ l := by
  induction p generalizing l with
  | nil =>
    simp only [litP, Option.some.injEq] at h
    subst h
    exact List.suffix_refl l
  | cons x ps ih =>
    cases l with
    | nil => exact absurd h (by simp [litP])
    | cons c cs =>
      unfold litP at h
      by_cases hc : c = x
      · rw [if_pos hc] at h
        exact (ih h).trans (List.suffix_cons c cs)
      · rw [if_neg hc] at h
        exact absurd h (by simp)

theorem fullDateAt_digits {u : List Char} {v : Nat × Nat × Nat}
    (h : fullDateAt u = some v) : (digits4 u).isSome = true := by
  unfold fullDateAt at h
  simp only [Option.pure_def, Option.bind_eq_bind, Option.bind_eq_some] at h
  obtain ⟨⟨yv, r1⟩, h2, _⟩ := h
  simp [h2]

theorem rangeCore_digits {u : List Char} {v : Nat × Nat}
    (h : rangeCore u = some v) : (digits4 u).isSome = true := by
  unfold rangeCore at h
  simp only [Option.pure_def, Option.bind_eq_bind, Option.bind_eq_some] at h
  obtain ⟨⟨yv, r1⟩, h2, _⟩ := h
  simp [h2]

theorem rangeAt_digits {u : List Char} {v : Nat × Nat}
    (h : rangeAt u = some v) :
    ∃ w, w <:+ u ∧ (digits4 w).isSome = true := by
  unfold rangeAt at h
  rcases orElse_eq_some_elim h with h1 | ⟨_, h1⟩
  · split at h1
    next r0 hl =>
      split at h1
      · exact absurd h1 (by simp)
      · refine ⟨r0.dropWhile isWsC, ?_, rangeCore_digits h1⟩
        exact (List.dropWhile_suffix isWsC).trans (litP_suffix hl)
    next => exact absurd h1 (by simp)
  · exact ⟨u, List.suffix_refl u, rangeCore_digits h1⟩

theorem ymAt_digits {u : List Char} {v : Nat × List Char}
    (h : ymAt u = some v) :
    ∃ w, w <:+ u ∧ (digits4 w).isSome = true := by
  unfold ymAt at h
  rcases orElse_eq_some_elim h with h1 | ⟨_, h1⟩
  · unfold alt1 at h1
    simp only [Option.pure_def, Option.bind_eq_bind, Option.bind_eq_some] at h1
    obtain ⟨⟨yv, r1⟩, h2, _⟩ := h1
    exact ⟨u, List.suffix_refl u, by simp [h2]⟩
  · unfold alt2 at h1
    split at h1
    · exact absurd h1 (by simp)
    · rcases hd : digits4 ((u.dropWhile isAlphaC).dropWhile ymClass) with _ | w
      · rw [hd] at h1; exact absurd h1 (by simp)
      · refine ⟨(u.dropWhile isAlphaC).dropWhile ymClass, ?_, by simp [hd]⟩
        exact (List.dropWhile_suffix ymClass).trans (List.dropWhile_suffix isAlphaC)

/-- If the bare-year pattern fails everywhere, so do the three patterns
above it in the cascade (each needs a `\d{4}` group somewhere). -/
theorem noYear_noOthers {l : List Char} (h : yearSearch l = none) :
    fullDateSearch l = none ∧ rangeSearch l = none ∧ ymSearch l = none := by
  have hy : ∀ u, u <:+ l → (digits4 u).isSome = true → False := by
    intro u hu hd
    have := search_eq_none h u hu
    unfold yearAt at this
    rcases he : digits4 u with _ | w
    · rw [he] at hd; simp at hd
    · rw [he] at this; simp at this
  refine ⟨?_, ?_, ?_⟩
  · rcases hf : fullDateSearch l with _ | v
    · rfl
    · obtain ⟨u, hu, hm⟩ := search_eq_some hf
      exact (hy u hu (fullDateAt_digits hm)).elim
  · rcases hf : rangeSearch l with _ | v
    · rfl
    · obtain ⟨u, hu, hm⟩ := search_eq_some hf
      obtain ⟨w, hw, hd⟩ := rangeAt_digits hm
      exact (hy w (hw.trans hu) hd).elim
  · rcases hf : ymSearch l with _ | v
    · rfl
    · obtain ⟨u, hu, hm⟩ := search_eq_some hf
      obtain ⟨w, hw, hd⟩ := ymAt_digits hm
      exact (hy w (hw.trans hu) hd).elim

/-- C2.  Whenever `extract_dates` returns a string, that string has one of
exactly five shapes: empty, `YYYY`, `YYYY-MM`, `YYYY-MM-DD`, `YYYY/YYYY`
(zero-padded ASCII digits throughout), as checked by `dateShape`. -/
theorem dateExtractor_shape (c : List Frag) (s : String)
    (h : extractDates c = some s) : dateShape s.data = true := by
  unfold extractDates at h
  obtain ⟨t, hsel, hs⟩ := Option.map_eq_some'.mp h
  rw [← hs]
  exact extractCore_shape (cleanOf t)

/-- Witness for `dateExtractor_shape` at a concrete input. -/
theorem dateExtractor_shape_witness :
    extractDates [Frag.str "Sept. 1941"] = some "1941-09" ∧
      dateShape "1941-09".data = true :=
  ⟨by decide, dateExtractor_shape [Frag.str "Sept. 1941"] "1941-09" (by decide)⟩

/-- C1 (counterexample).  A two-element container of plain strings makes the
selection step of `extract_dates` raise `IndexError` (modelled as `none`):
the claim that every fragment sequence yields a string is false. -/
theorem dateExtractor_multi_plain_raises :
    extractDates [Frag.str "1941", Frag.str "1942"] = none := by decide

/-- C1 (amended).  Whenever the selection step succeeds — a single string
fragment, or several fragments among which the first nested sequence is
non-empty — `extract_dates` returns a string, and returns the empty string
whenever the cleaned text has no four-digit run (no pattern of the cascade
can then match). -/
theorem dateExtractor_total_amended (c : List Frag) (t : List Char)
    (hsel : selectText c = some t) :
    ∃ s, extractDates c = some s ∧
      (yearSearch (cleanOf t) = none → s = "") := by
  refine ⟨String.mk (extractCore (cleanOf t)), ?_, ?_⟩
  · unfold extractDates
    rw [hsel]
    rfl
  · intro hy
    obtain ⟨h1, h2, h3⟩ := noYear_noOthers hy
    unfold extractCore
    rw [h1, h2, h3, hy]

/-- Witness for `dateExtractor_total_amended` at a concrete dateless input. -/
theorem dateExtractor_total_witness :
    selectText [Frag.str "library of congress"] = some "library of congress".data ∧
      extractDates [Frag.str "library of congress"] = some "" := by
  refine ⟨by decide, ?_⟩
  obtain ⟨s, hs, he⟩ :=
    dateExtractor_total_amended [Frag.str "library of congress"]
      "library of congress".data (by decide)
  rw [he (by decide)] at hs
  exact hs

/-- C3.  The year-range comment of the source promises `1900-1905` parses
as a range, but `\D+` demands a non-digit on each side of the connector, so
a lone hyphen between the years cannot serve as both: the code falls back
to the bare year `1900`, while the `between … and …` form does work. -/
theorem dateExtractor_range_eval :
    extractDates [Frag.str "between 1900 and 1905"] = some "1900/1905" ∧
      extractDates [Frag.str "1900-1905"] = some "1900" ∧
      ("1900" : String) ≠ "1900/1905" :=
  ⟨by decide, by decide, by decide⟩

/-- C4 (counterexample).  `extract_dates` is not idempotent on its own
output: `1941-09` is a produced output, and re-running on it yields the
bare year `1941` (the year-month pattern needs a month name, and only the
bare-year pattern matches `1941-09`). -/
theorem dateExtractor_not_idempotent :
    extractDates [Frag.str "Sept. 1941"] = some "1941-09" ∧
      extractDates [Frag.str "1941-09"] = some "1941" ∧
      ("1941" : String) ≠ "1941-09" :=
  ⟨by decide, by decide, by decide⟩

/-- C5 (counterexample).  A hyphen between the year and a resolvable month
name defeats the year-month pattern (its separator class is only
whitespace, periods and commas), so `1941-sept` yields the bare `1941`,
not `1941-09`, although `sept` resolves and no full date or range matches. -/
theorem dateExtractor_hyphen_month :
    monthNameToNumber "sept".data = some 9 ∧
      fullDateSearch (cleanOf "1941-sept".data) = none ∧
      rangeSearch (cleanOf "1941-sept".data) = none ∧
      extractDates [Frag.str "1941-sept"] = some "1941" ∧
      ("1941" : String) ≠ "1941-09" :=
  ⟨by decide, by decide, by decide, by decide, by decide⟩

/-- C5 (amended).  On a single-string input on which neither the full-date
nor the year-range pattern matches and the year-month pattern finds a year
and an adjacent alphabetic token (across whitespace, periods or commas,
both orders tried, leftmost match first), `extract_dates` returns
`YYYY-MM` when the token resolves and the bare `YYYY` otherwise. -/
theorem dateExtractor_year_month_amended (t : String) (y : Nat)
    (tk : List Char)
    (h1 : fullDateSearch (cleanOf t.data) = none)
    (h2 : rangeSearch (cleanOf t.data) = none)
    (h3 : ymSearch (cleanOf t.data) = some (y, tk)) :
    extractDates [Frag.str t] =
      some (String.mk (match monthNameToNumber tk with
        | some m => format4 y ++ '-' :: format2 m
        | none => format4 y)) := by
  have hsel : selectText [Frag.str t] = some t.data := rfl
  unfold extractDates
  rw [hsel]
  simp only [Option.map_some']
  unfold extractCore
  rw [h1, h2, h3]

/-- Witness for `dateExtractor_year_month_amended` on the two spec
examples, one in each token order. -/
theorem dateExtractor_year_month_witness :
    extractDates [Frag.str "Sept. 1941"] = some "1941-09" ∧
      extractDates [Frag.str "1941 September"] = some "1941-09" := by
  constructor
  · have h := dateExtractor_year_month_amended "Sept. 1941" 1941 "sept".data
      (by decide) (by decide) (by decide)
    rw [h]
    decide
  · have h := dateExtractor_year_month_amended "1941 September" 1941
      "september".data (by decide) (by decide) (by decide)
    rw [h]
    decide

theorem dropWhile_eq_self {p : Char → Bool} {l : List Char}
    (h : headNot p l) : l.dropWhile p = l := by
  cases l with
  | nil => rfl
  | cons c r =>
    unfold headNot at h
    simp [List.dropWhile_cons, h]

theorem headNot_dropWhile (p : Char → Bool) (l : List Char) :
    headNot p (l.dropWhile p) := by
  induction l with
  | nil => trivial
  | cons c r ih =>
    rw [List.dropWhile_cons]
    by_cases h : p c = true
    · rw [if_pos h]; exact ih
    · rw [if_neg h]
      show p c = false
      simp only [Bool.not_eq_true] at h
      exact h

theorem dropEndWhile_eq_self {p : Char → Bool} {l : List Char}
    (h : lastNot p l) : dropEndWhile p l = l := by
  induction l with
  | nil => rfl
  | cons c r ih =>
    unfold dropEndWhile
    cases r with
    | nil =>
      unfold lastNot at h
      simp only [List.getLast?_singleton] at h
      simp [dropEndWhile, h]
    | cons x xs =>
      have hr : lastNot p (x :: xs) := by
        unfold lastNot at h ⊢
        rw [List.getLast?_cons_cons] at h
        exact h
      rw [ih hr]
      simp

theorem lastNot_dropEndWhile (p : Char → Bool) (l : List Char) :
    lastNot p (dropEndWhile p l) := by
  induction l with
  | nil => trivial
  | cons c r ih =>
    unfold dropEndWhile
    by_cases h : dropEndWhile p r = [] ∧ p c = true
    · rw [if_pos h]; trivial
    · rw [if_neg h]
      rcases hd : dropEndWhile p r with _ | ⟨x, xs⟩
      · unfold lastNot
        simp only [List.getLast?_singleton]
        rcases Decidable.not_and_iff_or_not.mp h with h1 | h1
        · exact absurd hd h1
        · show p c = false
          simp only [Bool.not_eq_true] at h1
          exact h1
      · unfold lastNot at ih ⊢
        rw [hd] at ih
        rw [List.getLast?_cons_cons]
        exact ih

theorem headNot_dropEndWhile (p : Char → Bool) {l : List Char}
    (h : headNot p l) : headNot p (dropEndWhile p l) := by
  cases l with
  | nil => trivial
  | cons c r =>
    unfold dropEndWhile
    by_cases hc : dropEndWhile p r = [] ∧ p c = true
    · rw [if_pos hc]; trivial
    · rw [if_neg hc]; exact h

/-- `pyStrip` is idempotent: its image are exactly the trimmed strings. -/
theorem pyStrip_trimmed (l : List Char) : pyStrip (pyStrip l) = pyStrip l := by
  unfold pyStrip
  have h1 : headNot isWsC (dropEndWhile isWsC (l.dropWhile isWsC)) :=
    headNot_dropEndWhile isWsC (headNot_dropWhile isWsC l)
  rw [dropWhile_eq_self h1]
  exact dropEndWhile_eq_self (lastNot_dropEndWhile isWsC (l.dropWhile isWsC))

theorem trimmed_headNot {l : List Char} (h : pyStrip l = l) :
    headNot isWsC l := by
  rw [← h]
  exact headNot_dropEndWhile isWsC (headNot_dropWhile isWsC l)

theorem trimmed_lastNot {l : List Char} (h : pyStrip l = l) :
    lastNot isWsC l := by
  rw [← h]
  exact lastNot_dropEndWhile isWsC (l.dropWhile isWsC)

theorem trimmed_of {l : List Char} (h1 : headNot isWsC l)
    (h2 : lastNot isWsC l) : pyStrip l = l := by
  unfold pyStrip
  rw [dropWhile_eq_self h1]
  exact dropEndWhile_eq_self h2

theorem headNot_append_cons {p : Char → Bool} {x rest : List Char} {sep : Char}
    (hx : headNot p x) (hsep : p sep = false) :
    headNot p (x ++ sep :: rest) := by
  cases x with
  | nil => exact hsep
  | cons c cs => exact hx

theorem lastNot_append_cons {p : Char → Bool} {x rest : List Char} {sep : Char}
    (hrest : lastNot p rest) (hsep : p sep = false) :
    lastNot p (x ++ sep :: rest) := by
  unfold lastNot
  rw [List.getLast?_append_cons]
  cases rest with
  | nil => simpa [List.getLast?_singleton]
  | cons y ys =>
    rw [List.getLast?_cons_cons]
    unfold lastNot at hrest
    exact hrest

/-- A `sep`-join of trimmed pieces is trimmed when `sep` is not whitespace. -/
theorem joinWith_trimmed {sep : Char} (hsep : isWsC sep = false) :
    ∀ parts : List (List Char), (∀ x ∈ parts, pyStrip x = x) →
      pyStrip (joinWith sep parts) = joinWith sep parts := by
  intro parts
  induction parts with
  | nil => intro _; rfl
  | cons x xs ih =>
    intro hall
    cases xs with
    | nil => exact hall x (by simp)
    | cons y ys =>
      have hx := hall x (by simp)
      have hrest : pyStrip (joinWith sep (y :: ys)) = joinWith sep (y :: ys) :=
        ih fun z hz => hall z (List.mem_cons_of_mem _ hz)
      show pyStrip (x ++ sep :: joinWith sep (y :: ys)) = _
      refine trimmed_of ?_ ?_
      · exact headNot_append_cons (trimmed_headNot hx) hsep
      · exact lastNot_append_cons (trimmed_lastNot hrest) hsep

/-- C6 (counterexample).  A single element containing `:` but no `" : "`
separator makes `determine_extent_form` raise `ValueError` (the two-way
unpack of a one-element split), modelled as `none` — the claim that every
non-empty input, including single elements with `:`, yields two strings is
false. -/
theorem extentForm_colon_raises : determineExtentForm ["a:b"] = none := by
  decide

/-- C6 (amended).  On every input in `extentOk` — in particular every
multi-element input and every single element without `:` —
`determine_extent_form` returns exactly two strings, each trimmed of
surrounding whitespace (the second possibly empty); single elements with
`:` can instead raise `ValueError` or `AttributeError`. -/
theorem extentForm_two_trimmed_amended (c : List String)
    (h : extentOk c = true) :
    ∃ e f, determineExtentForm c = some (e, f) ∧
      pyStrip e.data = e.data ∧ pyStrip f.data = f.data := by
  cases c with
  | nil => exact absurd h (by simp [extentOk])
  | cons s rest =>
    cases rest with
    | cons t ts =>
      refine ⟨_, _, rfl, ?_, rfl⟩
      show pyStrip (joinWith '|' ((s :: t :: ts).map fun z => pyStrip z.data)) = _
      refine joinWith_trimmed (by decide) _ ?_
      intro x hx
      obtain ⟨z, _, hz⟩ := List.mem_map.mp hx
      rw [← hz]
      exact pyStrip_trimmed z.data
    | nil =>
      simp only [extentOk] at h
      simp only [determineExtentForm]
      by_cases h1 : (containsChar ':' s.data && containsChar ';' s.data) = true
      · rw [if_pos h1] at h ⊢
        rcases hm : m3 s.data with _ | ⟨⟨g1, g2, g3⟩⟩
        · rw [hm] at h; simp at h
        · refine ⟨_, _, rfl, ?_, pyStrip_trimmed g2⟩
          show pyStrip (pyStrip g1 ++ '|' :: pyStrip g3) = _
          have hj : pyStrip g1 ++ '|' :: pyStrip g3 =
              joinWith '|' [pyStrip g1, pyStrip g3] := rfl
          rw [hj]
          refine joinWith_trimmed (by decide) _ ?_
          intro x hx
          simp only [List.mem_cons, List.not_mem_nil, or_false] at hx
          rcases hx with hx | hx <;> rw [hx]
          · exact pyStrip_trimmed g1
          · exact pyStrip_trimmed g3
      · rw [if_neg h1] at h ⊢
        by_cases h2 : containsChar ':' s.data = true
        · rw [if_pos h2] at h ⊢
          rcases hs : splitColon3 s.data with _ | ⟨a, _ | ⟨b, _ | ⟨c2, rest2⟩⟩⟩
          · rw [hs] at h; simp at h
          · rw [hs] at h; simp at h
          · exact ⟨_, _, rfl, pyStrip_trimmed a, pyStrip_trimmed b⟩
          · rw [hs] at h; simp at h
        · rw [if_neg h2] at h ⊢
          exact ⟨_, _, rfl, pyStrip_trimmed s.data, rfl⟩

/-- Witness for `extentForm_two_trimmed_amended` on the spec's
colon-and-semicolon example. -/
theorem extentForm_witness :
    extentOk ["24 x 36 cm : color ; mounted on board"] = true ∧
      ∃ e f, determineExtentForm ["24 x 36 cm : color ; mounted on board"] =
          some (e, f) ∧ pyStrip e.data = e.data ∧ pyStrip f.data = f.data :=
  ⟨by decide,
    extentForm_two_trimmed_amended ["24 x 36 cm : color ; mounted on board"]
      (by decide)⟩

/-- A successful search succeeds at a suffix at which every strictly longer
suffix (earlier starting position) fails: the match is leftmost. -/
theorem search_leftmost {α : Type} {m : List Char → Option α} {l : List Char}
    {v : α} (h : search m l = some v) :
    ∃ u, u <:+ l ∧ m u = some v ∧
      ∀ w, w <:+ l → u <:+ w → w ≠ u → m w = none := by
  induction l with
  | nil =>
    refine ⟨[], List.suffix_refl [], h, ?_⟩
    intro w hw _ hne
    exact absurd (List.suffix_nil.mp hw) hne
  | cons c r ih =>
    unfold search at h
    rcases orElse_eq_some_elim h with h1 | ⟨h1, h2⟩
    · refine ⟨c :: r, List.suffix_refl _, h1, ?_⟩
      intro w hw1 hw2 hne
      have hlen := le_antisymm hw1.sublist.length_le hw2.sublist.length_le
      exact absurd (hw1.sublist.eq_of_length hlen) hne
    · obtain ⟨u, hu, hm, hmin⟩ := ih h2
      refine ⟨u, hu.trans (List.suffix_cons c r), hm, ?_⟩
      intro w hw1 hw2 hne
      rcases List.suffix_cons_iff.mp hw1 with he | hr
      · rw [he]; exact h1
      · exact hmin w hr hw2 hne

/-- The first element remaining after a `dropWhile` fails the predicate. -/
theorem dropWhile_head_false {p : Char → Bool} {l : List Char} {c : Char}
    {rs : List Char} (h : l.dropWhile p = c :: rs) : p c = false := by
  induction l with
  | nil => exact absurd h (by simp)
  | cons x xs ih =>
    rw [List.dropWhile_cons] at h
    by_cases hx : p x = true
    · rw [if_pos hx] at h; exact ih h
    · rw [if_neg hx] at h
      injection h with h1 _
      subst h1
      simp only [Bool.not_eq_true] at hx
      exact hx

/-- Decomposition of a successful match of `\. \| (.+)` at one position. -/
theorem descAt_elim {u cap : List Char} (h : descAt u = some cap) :
    cap ≠ [] ∧ (∀ ch ∈ cap, ch ≠ '\n') ∧
      ∃ rest, u = '.' :: ' ' :: '|' :: ' ' :: (cap ++ rest) ∧
        (rest = [] ∨ ∃ r2, rest = '\n' :: r2) := by
  unfold descAt at h
  split at h
  next a b c d r =>
    split at h
    next hc =>
      obtain ⟨ha, hb, hcc, hd⟩ := hc
      subst ha; subst hb; subst hcc; subst hd
      split at h
      · exact absurd h (by simp)
      next hne =>
        injection h with hcap
        refine ⟨?_, ?_, r.dropWhile fun x => !(x = '\n'), ?_, ?_⟩
        · rw [← hcap]
          intro hnil
          rw [hnil] at hne
          exact hne rfl
        · intro ch hch
          rw [← hcap] at hch
          have := List.mem_takeWhile_imp hch
          simpa using this
        · rw [← hcap]
          rw [List.takeWhile_append_dropWhile]
        · rcases hrest : r.dropWhile (fun x => !(x = '\n')) with _ | ⟨c2, r2⟩
          · left; rfl
          · right
            have := dropWhile_head_false hrest
            simp only [Bool.not_eq_false] at this
            have hc2 : c2 = '\n' := by simpa using this
            exact ⟨r2, by rw [hc2]⟩
    next => exact absurd h (by simp)
  next => exact absurd h (by simp)

/-- C7 (counterexample).  A `". | "` marker followed only by a newline and
further text is skipped by the code (the captured group `(.+)` cannot match
a newline), so the notes fallback is returned instead of the text after the
first marker occurrence. -/
theorem descExtractor_newline_counterexample :
    extractDescription ". | \nX" ["note"] = "note" ∧
      ("note" : String) ≠ "\nX" ∧ ("note" : String) ≠ "X" :=
  ⟨by decide, by decide, by decide⟩

/-- C7 (amended).  `extract_description` returns the capture of the
leftmost occurrence of `". | "` that is followed by at least one
non-newline character; the capture is the maximal run of non-newline
characters after the marker (it stops at a newline); with no such
occurrence the notes are returned joined by single spaces. -/
theorem descExtractor_amended (d : String) (notes : List String) :
    (searchDesc d.data = none →
      extractDescription d notes =
        String.mk (joinWith ' ' (notes.map String.data))) ∧
    (∀ cap, searchDesc d.data = some cap →
      extractDescription d notes = String.mk cap ∧ cap ≠ [] ∧
        (∀ ch ∈ cap, ch ≠ '\n') ∧
        ∃ pre rest,
          d.data = pre ++ '.' :: ' ' :: '|' :: ' ' :: (cap ++ rest) ∧
          (rest = [] ∨ ∃ r2, rest = '\n' :: r2) ∧
          ∀ w, w <:+ d.data → ('.' :: ' ' :: '|' :: ' ' :: (cap ++ rest)) <:+ w →
            w ≠ '.' :: ' ' :: '|' :: ' ' :: (cap ++ rest) → descAt w = none) := by
  constructor
  · intro hn
    unfold extractDescription
    rw [hn]
  · intro cap hs
    have he : extractDescription d notes = String.mk cap := by
      unfold extractDescription
      rw [hs]
    obtain ⟨u, hu, hm, hmin⟩ := search_leftmost hs
    obtain ⟨hne, hnl, rest, hdec, hrest⟩ := descAt_elim hm
    subst hdec
    obtain ⟨pre, hpre⟩ := hu
    exact ⟨he, hne, hnl, pre, rest, hpre.symm, hrest, fun w hw1 hw2 hne2 =>
      hmin w hw1 hw2 hne2⟩

/-- Witness for `descExtractor_amended` on the spec's two examples. -/
theorem descExtractor_witness :
    extractDescription "Boilerplate sentence. | Actual text." ["fallback"] =
        "Actual text." ∧
      extractDescription "no marker" ["a", "b"] = "a b" := by
  constructor
  · have h := (descExtractor_amended "Boilerplate sentence. | Actual text."
      ["fallback"]).2 "Actual text.".data (by decide)
    exact h.1
  · have h := (descExtractor_amended "no marker" ["a", "b"]).1 (by decide)
    rw [h]
    decide

/-- C8 (counterexample).  On the all-absent record the rights field is the
fixed fallback sentence, not the empty string the claim lists for it. -/
theorem recordNormalizer_rights_not_empty :
    (recordNormalizer emptyRaw).map NormalizedRow.rights = some rightsFallback ∧
      rightsFallback ≠ "" :=
  ⟨by decide, by decide⟩

/-- C8 (amended).  On a record with every optional field absent the
normalization completes without an exception and every listed field is the
empty string except rights, which is the fixed fallback sentence. -/
theorem recordNormalizer_empty_record_amended :
    recordNormalizer emptyRaw = some
      { item_type := "Item", title := "", created := "", description := "",
        contributor := "", controlNumber := "", locationUrl := "",
        mediaType := "", physicalExtent := "", physicalForm := "",
        subject := "", language := "", accessCondition := "",
        rights := rightsFallback } := by
  decide

/-- C9.  Whenever the normalization returns a row, its rights field is the
fixed fallback sentence exactly when the cleaned rights text is empty
(absent field, empty list, or text cleaning to nothing), and the cleaned
text itself otherwise. -/
theorem recordNormalizer_rights_fallback (r : RawRecord) (row : NormalizedRow)
    (h : recordNormalizer r = some row) :
    (cleanHtmlText (r.rights.getD []) = "" → row.rights = rightsFallback) ∧
      (cleanHtmlText (r.rights.getD []) ≠ "" →
        row.rights = cleanHtmlText (r.rights.getD [])) := by
  unfold recordNormalizer at h
  simp only [Option.pure_def, Option.bind_eq_bind, Option.bind_eq_some,
    Option.some.injEq] at h
  obtain ⟨created, h1, d0, h2, ef, h3, lang, h4, hrow⟩ := h
  constructor
  · intro he
    rw [← hrow]
    show pyOrS (cleanHtmlText (r.rights.getD [])) rightsFallback = rightsFallback
    unfold pyOrS
    rw [if_pos he]
  · intro he
    rw [← hrow]
    show pyOrS (cleanHtmlText (r.rights.getD [])) rightsFallback =
      cleanHtmlText (r.rights.getD [])
    unfold pyOrS
    rw [if_neg he]

/-- Witness for `recordNormalizer_rights_fallback` on a record whose rights
text carries markup and an entity. -/
theorem recordNormalizer_rights_witness :
    recordNormalizer rightsSample = some sampleRow ∧
      cleanHtmlText (rightsSample.rights.getD []) ≠ "" ∧
      sampleRow.rights = cleanHtmlText (rightsSample.rights.getD []) := by
  refine ⟨by decide, by decide, ?_⟩
  exact (recordNormalizer_rights_fallback rightsSample sampleRow
    (by decide)).2 (by decide)

theorem cleanSub_keep {c : Char} {r : List Char}
    (h1 : ¬(c = '[' ∨ c = ']' ∨ c = '(' ∨ c = ')' ∨ c = '?'))
    (h2 : ¬(c = 'c')) : cleanSub (c :: r) = c :: cleanSub r := by
  rw [cleanSub.eq_def]
  dsimp only
  rw [if_neg h1, if_neg h2]

theorem dig_not_bracket {c : Char} (hc : isDig c = true) :
    ¬(c = '[' ∨ c = ']' ∨ c = '(' ∨ c = ')' ∨ c = '?') := by
  rintro (h | h | h | h | h) <;> exact dig_ne hc (by decide) h

theorem cleanSub_dig {c : Char} {r : List Char} (hc : isDig c = true) :
    cleanSub (c :: r) = c :: cleanSub r :=
  cleanSub_keep (dig_not_bracket hc) (dig_ne hc (by decide))

theorem cleanSub_digits {l : List Char} (h : ∀ c ∈ l, isDig c = true) :
    cleanSub l = l := by
  induction l with
  | nil => rfl
  | cons c r ih =>
    rw [cleanSub_dig (h c (by simp))]
    rw [ih fun x hx => h x (List.mem_cons_of_mem _ hx)]

theorem lowerC_digits {l : List Char} (h : ∀ c ∈ l, isDig c = true) :
    l.map lowerC = l := by
  induction l with
  | nil => rfl
  | cons c r ih =>
    rw [List.map_cons, lowerC_dig (h c (by simp)),
      ih fun x hx => h x (List.mem_cons_of_mem _ hx)]

theorem trimmed_of_all_not_ws {l : List Char}
    (h : ∀ c ∈ l, isWsC c = false) : pyStrip l = l := by
  refine trimmed_of ?_ ?_
  · cases l with
    | nil => trivial
    | cons c r => exact h c (by simp)
  · unfold lastNot
    rcases hg : l.getLast? with _ | c
    · trivial
    · exact h c (List.mem_of_mem_getLast? hg)

theorem cleanOf_digits {l : List Char} (h : ∀ c ∈ l, isDig c = true) :
    cleanOf l = l := by
  unfold cleanOf
  rw [lowerC_digits h, cleanSub_digits h]
  exact trimmed_of_all_not_ws fun c hc => not_isWsC_of_dig (h c hc)

theorem digits4_cons4 {a b c d : Char} {r : List Char} (ha : isDig a = true)
    (hb : isDig b = true) (hc : isDig c = true) (hd : isDig d = true) :
    digits4 (a :: b :: c :: d :: r) =
      some (1000 * dv a + 100 * dv b + 10 * dv c + dv d, r) := by
  simp [digits4, ha, hb, hc, hd]

theorem digits4_head_not {c : Char} {l : List Char} (hc : isDig c = false) :
    digits4 (c :: l) = none := by
  rcases l with _ | ⟨x, _ | ⟨y, _ | ⟨z, r⟩⟩⟩ <;> simp [digits4, hc]

theorem digits4_short {l : List Char} (h : l.length ≤ 3) :
    digits4 l = none := by
  rcases l with _ | ⟨x, _ | ⟨y, _ | ⟨z, _ | ⟨w, r⟩⟩⟩⟩ <;> first | rfl | simp at h

theorem sepP_dig {c : Char} {r : List Char} (hc : isDig c = true) :
    sepP (c :: r) = none := by
  have : ¬(c = '.' ∨ c = '/' ∨ c = '-' ∨ c = ' ') := by
    rintro (h | h | h | h) <;> exact dig_ne hc (by decide) h
  simp [sepP, this]

theorem alt2_head_not {c : Char} {l : List Char} (hc : isAlphaC c = false) :
    alt2 (c :: l) = none := by
  unfold alt2
  rw [if_pos]
  rw [List.takeWhile_cons, hc]
  rfl

theorem yearAt_cons4 {a b c d : Char} {r : List Char} (ha : isDig a = true)
    (hb : isDig b = true) (hc : isDig c = true) (hd : isDig d = true) :
    yearAt (a :: b :: c :: d :: r) =
      some (1000 * dv a + 100 * dv b + 10 * dv c + dv d) := by
  unfold yearAt
  rw [digits4_cons4 ha hb hc hd]
  rfl

theorem fullDateAt_block {a b c d : Char} (ha : isDig a = true)
    (hb : isDig b = true) (hc : isDig c = true) (hd : isDig d = true) :
    fullDateAt [a, b, c, d] = none := by
  unfold fullDateAt
  rw [digits4_cons4 ha hb hc hd]
  rfl

theorem fullDateAt_short {l : List Char} (h : l.length ≤ 3) :
    fullDateAt l = none := by
  unfold fullDateAt
  rw [digits4_short h]
  rfl

theorem fullDateSearch_block {a b c d : Char} (ha : isDig a = true)
    (hb : isDig b = true) (hc : isDig c = true) (hd : isDig d = true) :
    fullDateSearch [a, b, c, d] = none := by
  show search fullDateAt [a, b, c, d] = none
  simp [search, fullDateAt_block ha hb hc hd, fullDateAt_short, Option.orElse]

theorem litP_between_dig {c : Char} {l : List Char} (hc : isDig c = true) :
    litP ['b', 'e', 't', 'w', 'e', 'e', 'n'] (c :: l) = none := by
  unfold litP
  rw [if_neg (dig_ne hc (by decide))]

theorem rangeCore_block {a b c d : Char} (ha : isDig a = true)
    (hb : isDig b = true) (hc : isDig c = true) (hd : isDig d = true) :
    rangeCore [a, b, c, d] = none := by
  unfold rangeCore
  rw [digits4_cons4 ha hb hc hd]
  rfl

theorem rangeCore_short {l : List Char} (h : l.length ≤ 3) :
    rangeCore l = none := by
  unfold rangeCore
  rw [digits4_short h]
  rfl

theorem rangeAt_block {a b c d : Char} (ha : isDig a = true)
    (hb : isDig b = true) (hc : isDig c = true) (hd : isDig d = true) :
    rangeAt [a, b, c, d] = none := by
  unfold rangeAt
  rw [litP_between_dig ha, rangeCore_block ha hb hc hd]
  rfl

theorem rangeAt_short_dig {l : List Char} (h : l.length ≤ 3)
    (hdig : ∀ c ∈ l, isDig c = true) : rangeAt l = none := by
  unfold rangeAt
  cases l with
  | nil => rfl
  | cons c r =>
    rw [litP_between_dig (hdig c (by simp)), rangeCore_short h]
    rfl

theorem rangeSearch_block {a b c d : Char} (ha : isDig a = true)
    (hb : isDig b = true) (hc : isDig c = true) (hd : isDig d = true) :
    rangeSearch [a, b, c, d] = none := by
  show search rangeAt [a, b, c, d] = none
  have e1 : rangeAt [a, b, c, d] = none := rangeAt_block ha hb hc hd
  have e2 : rangeAt [b, c, d] = none :=
    rangeAt_short_dig (by simp) (by intro x hx; simp only [List.mem_cons, List.not_mem_nil, or_false] at hx; rcases hx with rfl | rfl | rfl <;> assumption)
  have e3 : rangeAt [c, d] = none :=
    rangeAt_short_dig (by simp) (by intro x hx; simp only [List.mem_cons, List.not_mem_nil, or_false] at hx; rcases hx with rfl | rfl <;> assumption)
  have e4 : rangeAt [d] = none :=
    rangeAt_short_dig (by simp) (by intro x hx; simp only [List.mem_cons, List.not_mem_nil, or_false] at hx; rcases hx with rfl; assumption)
  have e5 : rangeAt [] = none := rfl
  simp [search, e1, e2, e3, e4, e5, Option.orElse]

theorem alt1_block {a b c d : Char} (ha : isDig a = true)
    (hb : isDig b = true) (hc : isDig c = true) (hd : isDig d = true) :
    alt1 [a, b, c, d] = none := by
  unfold alt1
  rw [digits4_cons4 ha hb hc hd]
  rfl

theorem alt1_nodig {l : List Char} (h : digits4 l = none) : alt1 l = none := by
  unfold alt1
  rw [h]
  rfl

theorem ymAt_block {a b c d : Char} (ha : isDig a = true)
    (hb : isDig b = true) (hc : isDig c = true) (hd : isDig d = true) :
    ymAt [a, b, c, d] = none := by
  unfold ymAt
  rw [alt1_block ha hb hc hd, alt2_head_not (not_isAlphaC_of_dig ha)]
  rfl

theorem ymAt_short_dig {l : List Char} (h : l.length ≤ 3)
    (hdig : ∀ c ∈ l, isDig c = true) : ymAt l = none := by
  unfold ymAt
  cases l with
  | nil => rfl
  | cons c r =>
    rw [alt1_nodig (digits4_short h),
      alt2_head_not (not_isAlphaC_of_dig (hdig c (by simp)))]
    rfl

theorem ymSearch_block {a b c d : Char} (ha : isDig a = true)
    (hb : isDig b = true) (hc : isDig c = true) (hd : isDig d = true) :
    ymSearch [a, b, c, d] = none := by
  show search ymAt [a, b, c, d] = none
  have e1 : ymAt [a, b, c, d] = none := ymAt_block ha hb hc hd
  have e2 : ymAt [b, c, d] = none :=
    ymAt_short_dig (by simp) (by intro x hx; simp only [List.mem_cons, List.not_mem_nil, or_false] at hx; rcases hx with rfl | rfl | rfl <;> assumption)
  have e3 : ymAt [c, d] = none :=
    ymAt_short_dig (by simp) (by intro x hx; simp only [List.mem_cons, List.not_mem_nil, or_false] at hx; rcases hx with rfl | rfl <;> assumption)
  have e4 : ymAt [d] = none :=
    ymAt_short_dig (by simp) (by intro x hx; simp only [List.mem_cons, List.not_mem_nil, or_false] at hx; rcases hx with rfl; assumption)
  have e5 : ymAt [] = none := rfl
  simp [search, e1, e2, e3, e4, e5, Option.orElse]

theorem yearSearch_block {a b c d : Char} (ha : isDig a = true)
    (hb : isDig b = true) (hc : isDig c = true) (hd : isDig d = true) :
    yearSearch [a, b, c, d] =
      some (1000 * dv a + 100 * dv b + 10 * dv c + dv d) := by
  show search yearAt [a, b, c, d] = _
  simp [search, yearAt_cons4 ha hb hc hd, Option.orElse]

/-- A bare zero-padded year is a fixed point of the cascade. -/
theorem extractCore_block {a b c d : Char} (ha : isDig a = true)
    (hb : isDig b = true) (hc : isDig c = true) (hd : isDig d = true) :
    extractCore [a, b, c, d] = [a, b, c, d] := by
  unfold extractCore
  rw [fullDateSearch_block ha hb hc hd, rangeSearch_block ha hb hc hd,
    ymSearch_block ha hb hc hd, yearSearch_block ha hb hc hd]
  exact format4_parse ha hb hc hd

theorem isDig_dash : isDig '-' = false := by decide

theorem isDig_slash : isDig '/' = false := by decide

theorem fullDateAt_nodig {l : List Char} (h : digits4 l = none) :
    fullDateAt l = none := by
  unfold fullDateAt
  rw [h]
  rfl

theorem rangeCore_nodig {l : List Char} (h : digits4 l = none) :
    rangeCore l = none := by
  unfold rangeCore
  rw [h]
  rfl

theorem digits4_sep_at4 {x y z s : Char} {r : List Char}
    (hs : isDig s = false) : digits4 (x :: y :: z :: s :: r) = none := by
  simp [digits4, hs]

theorem sepP_nil : sepP [] = none := rfl

theorem sepP_dash {r : List Char} : sepP ('-' :: r) = some r := rfl

theorem nonDig_dash : nonDig '-' = true := by decide

theorem nonDig_slash : nonDig '/' = true := by decide

theorem mdTail_two {e f : Char} (he : isDig e = true) (hf : isDig f = true) :
    mdTail [e, f] = none := by
  unfold mdTail
  have h2 : digits2 [e, f] = some (10 * dv e + dv f, []) := by
    simp [digits2, he, hf]
  have h1 : digits1 [e, f] = some (dv e, [f]) := by simp [digits1, he]
  rw [h2, h1]
  simp [sepP_nil, sepP_dig hf, Option.orElse]

theorem sepP_slash {r : List Char} : sepP ('/' :: r) = some r := rfl

theorem connP_dig {c : Char} {r : List Char} (hc : isDig c = true) :
    connP (c :: r) = none := by
  have h1 : ¬(c = 'a') := dig_ne hc (by decide)
  have h2 : ¬(c = '-') := dig_ne hc (by decide)
  have h3 : ¬(c = 't') := dig_ne hc (by decide)
  simp [connP, litP, h1, h2, h3, Option.orElse]

/-- The `YYYY-MM` shape: the full-date pattern fails at every position. -/
theorem fullDateSearch_ym7 {a b c d e f : Char} (ha : isDig a = true)
    (hb : isDig b = true) (hc : isDig c = true) (hd : isDig d = true)
    (he : isDig e = true) (hf : isDig f = true) :
    fullDateSearch [a, b, c, d, '-', e, f] = none := by
  have e0 : fullDateAt [a, b, c, d, '-', e, f] = none := by
    unfold fullDateAt
    rw [digits4_cons4 ha hb hc hd]
    simp only [Option.pure_def, Option.bind_eq_bind, Option.some_bind,
      sepP_dash, mdTail_two he hf]
    rfl
  have e1 : fullDateAt [b, c, d, '-', e, f] = none :=
    fullDateAt_nodig (digits4_sep_at4 isDig_dash)
  have e2 : fullDateAt [c, d, '-', e, f] = none := by
    refine fullDateAt_nodig ?_
    simp [digits4, isDig_dash]
  have e3 : fullDateAt [d, '-', e, f] = none := by
    refine fullDateAt_nodig ?_
    simp [digits4, isDig_dash]
  have e4 : fullDateAt ['-', e, f] = none :=
    fullDateAt_nodig (digits4_head_not isDig_dash)
  have e5 : fullDateAt [e, f] = none := fullDateAt_short (by simp)
  have e6 : fullDateAt [f] = none := fullDateAt_short (by simp)
  have e7 : fullDateAt [] = none := rfl
  show search fullDateAt _ = none
  simp [search, e0, e1, e2, e3, e4, e5, e6, e7, Option.orElse]

/-- The `YYYY-MM` shape: the year-range pattern fails at every position
(a lone hyphen cannot be both `\D+` and the connector, and `06` is not a
four-digit year). -/
theorem rangeSearch_ym7 {a b c d e f : Char} (ha : isDig a = true)
    (hb : isDig b = true) (hc : isDig c = true) (hd : isDig d = true)
    (he : isDig e = true) (hf : isDig f = true) :
    rangeSearch [a, b, c, d, '-', e, f] = none := by
  have e0 : rangeAt [a, b, c, d, '-', e, f] = none := by
    unfold rangeAt
    rw [litP_between_dig ha]
    have hcore : rangeCore [a, b, c, d, '-', e, f] = none := by
      unfold rangeCore
      rw [digits4_cons4 ha hb hc hd]
      have htw : (['-', e, f].takeWhile nonDig).length = 1 := by
        simp [List.takeWhile_cons, nonDig_dash, nonDig_dig he]
      simp only [Option.pure_def, Option.bind_eq_bind, Option.some_bind, htw]
      have htry : rangeTryK ['-', e, f] 1 = none := by
        unfold rangeTryK
        simp [connP_dig he, rangeTryK, Option.orElse]
      rw [htry]
      rfl
    rw [hcore]
    rfl
  have e1 : rangeAt [b, c, d, '-', e, f] = none := by
    unfold rangeAt
    rw [litP_between_dig hb, rangeCore_nodig (digits4_sep_at4 isDig_dash)]
    rfl
  have e2 : rangeAt [c, d, '-', e, f] = none := by
    unfold rangeAt
    rw [litP_between_dig hc, rangeCore_nodig (by simp [digits4, isDig_dash])]
    rfl
  have e3 : rangeAt [d, '-', e, f] = none := by
    unfold rangeAt
    rw [litP_between_dig hd, rangeCore_nodig (by simp [digits4, isDig_dash])]
    rfl
  have e4 : rangeAt ['-', e, f] = none := by
    unfold rangeAt
    have hl : litP ['b', 'e', 't', 'w', 'e', 'e', 'n'] ('-' :: [e, f]) = none := by
      unfold litP
      rw [if_neg (by decide)]
    rw [hl, rangeCore_nodig (digits4_head_not isDig_dash)]
    rfl
  have e5 : rangeAt [e, f] = none :=
    rangeAt_short_dig (by simp) (by
      intro x hx
      simp only [List.mem_cons, List.not_mem_nil, or_false] at hx
      rcases hx with rfl | rfl <;> assumption)
  have e6 : rangeAt [f] = none :=
    rangeAt_short_dig (by simp) (by
      intro x hx
      simp only [List.mem_cons, List.not_mem_nil, or_false] at hx
      rcases hx with rfl
      assumption)
  have e7 : rangeAt [] = none := rfl
  show search rangeAt _ = none
  simp [search, e0, e1, e2, e3, e4, e5, e6, e7, Option.orElse]

/-- The `YYYY-MM` shape: the year-month pattern fails at every position
(no alphabetic token anywhere). -/
theorem ymSearch_ym7 {a b c d e f : Char} (ha : isDig a = true)
    (hb : isDig b = true) (hc : isDig c = true) (hd : isDig d = true)
    (he : isDig e = true) (hf : isDig f = true) :
    ymSearch [a, b, c, d, '-', e, f] = none := by
  have e0 : ymAt [a, b, c, d, '-', e, f] = none := by
    unfold ymAt
    have h1 : alt1 [a, b, c, d, '-', e, f] = none := by
      unfold alt1
      rw [digits4_cons4 ha hb hc hd]
      simp [List.dropWhile_cons, List.takeWhile_cons, ymClass, isWsC, wsNats,
        isAlphaC]
    rw [h1, alt2_head_not (not_isAlphaC_of_dig ha)]
    rfl
  have e1 : ymAt [b, c, d, '-', e, f] = none := by
    unfold ymAt
    rw [alt1_nodig (digits4_sep_at4 isDig_dash),
      alt2_head_not (not_isAlphaC_of_dig hb)]
    rfl
  have e2 : ymAt [c, d, '-', e, f] = none := by
    unfold ymAt
    rw [alt1_nodig (by simp [digits4, isDig_dash]),
      alt2_head_not (not_isAlphaC_of_dig hc)]
    rfl
  have e3 : ymAt [d, '-', e, f] = none := by
    unfold ymAt
    rw [alt1_nodig (by simp [digits4, isDig_dash]),
      alt2_head_not (not_isAlphaC_of_dig hd)]
    rfl
  have e4 : ymAt ['-', e, f] = none := by
    unfold ymAt
    rw [alt1_nodig (digits4_head_not isDig_dash), alt2_head_not (by decide)]
    rfl
  have e5 : ymAt [e, f] = none :=
    ymAt_short_dig (by simp) (by
      intro x hx
      simp only [List.mem_cons, List.not_mem_nil, or_false] at hx
      rcases hx with rfl | rfl <;> assumption)
  have e6 : ymAt [f] = none :=
    ymAt_short_dig (by simp) (by
      intro x hx
      simp only [List.mem_cons, List.not_mem_nil, or_false] at hx
      rcases hx with rfl
      assumption)
  have e7 : ymAt [] = none := rfl
  show search ymAt _ = none
  simp [search, e0, e1, e2, e3, e4, e5, e6, e7, Option.orElse]

/-- `YYYY-MM` re-parses to the bare leading year. -/
theorem extractCore_ym7 {a b c d e f : Char} (ha : isDig a = true)
    (hb : isDig b = true) (hc : isDig c = true) (hd : isDig d = true)
    (he : isDig e = true) (hf : isDig f = true) :
    extractCore [a, b, c, d, '-', e, f] = [a, b, c, d] := by
  unfold extractCore
  rw [fullDateSearch_ym7 ha hb hc hd he hf, rangeSearch_ym7 ha hb hc hd he hf,
    ymSearch_ym7 ha hb hc hd he hf]
  have hy : yearSearch [a, b, c, d, '-', e, f] =
      some (1000 * dv a + 100 * dv b + 10 * dv c + dv d) := by
    show search yearAt _ = _
    simp [search, yearAt_cons4 ha hb hc hd, Option.orElse]
  rw [hy]
  exact format4_parse ha hb hc hd

/-- The `YYYY/YYYY` shape: the full-date pattern fails at every position
(after `YYYY/` only two more digit groups would be needed, but no second
separator exists). -/
theorem fullDateSearch_range9 {a b c d e f g h : Char} (ha : isDig a = true)
    (hb : isDig b = true) (hc : isDig c = true) (hd : isDig d = true)
    (he : isDig e = true) (hf : isDig f = true) (hg : isDig g = true)
    (hh : isDig h = true) :
    fullDateSearch [a, b, c, d, '/', e, f, g, h] = none := by
  have e0 : fullDateAt [a, b, c, d, '/', e, f, g, h] = none := by
    unfold fullDateAt
    rw [digits4_cons4 ha hb hc hd]
    have hmd : mdTail [e, f, g, h] = none := by
      unfold mdTail
      have h2 : digits2 [e, f, g, h] = some (10 * dv e + dv f, [g, h]) := by
        simp [digits2, he, hf]
      have h1 : digits1 [e, f, g, h] = some (dv e, [f, g, h]) := by
        simp [digits1, he]
      rw [h2, h1]
      simp [sepP_dig hg, sepP_dig hf, Option.orElse]
    simp only [Option.pure_def, Option.bind_eq_bind, Option.some_bind,
      sepP_slash, hmd]
    rfl
  have e1 : fullDateAt [b, c, d, '/', e, f, g, h] = none :=
    fullDateAt_nodig (digits4_sep_at4 isDig_slash)
  have e2 : fullDateAt [c, d, '/', e, f, g, h] = none := by
    refine fullDateAt_nodig ?_
    simp [digits4, isDig_slash]
  have e3 : fullDateAt [d, '/', e, f, g, h] = none := by
    refine fullDateAt_nodig ?_
    simp [digits4, isDig_slash]
  have e4 : fullDateAt ['/', e, f, g, h] = none :=
    fullDateAt_nodig (digits4_head_not isDig_slash)
  have e5 : fullDateAt [e, f, g, h] = none := fullDateAt_block he hf hg hh
  have e6 : fullDateAt [f, g, h] = none := fullDateAt_short (by simp)
  have e7 : fullDateAt [g, h] = none := fullDateAt_short (by simp)
  have e8 : fullDateAt [h] = none := fullDateAt_short (by simp)
  have e9 : fullDateAt [] = none := rfl
  show search fullDateAt _ = none
  simp [search, e0, e1, e2, e3, e4, e5, e6, e7, e8, e9, Option.orElse]

/-- The `YYYY/YYYY` shape: the year-range pattern fails at every position
(a lone slash is not a connector). -/
theorem rangeSearch_range9 {a b c d e f g h : Char} (ha : isDig a = true)
    (hb : isDig b = true) (hc : isDig c = true) (hd : isDig d = true)
    (he : isDig e = true) (hf : isDig f = true) (hg : isDig g = true)
    (hh : isDig h = true) :
    rangeSearch [a, b, c, d, '/', e, f, g, h] = none := by
  have e0 : rangeAt [a, b, c, d, '/', e, f, g, h] = none := by
    unfold rangeAt
    rw [litP_between_dig ha]
    have hcore : rangeCore [a, b, c, d, '/', e, f, g, h] = none := by
      unfold rangeCore
      rw [digits4_cons4 ha hb hc hd]
      have htw : (['/', e, f, g, h].takeWhile nonDig).length = 1 := by
        simp [List.takeWhile_cons, nonDig_slash, nonDig_dig he]
      simp only [Option.pure_def, Option.bind_eq_bind, Option.some_bind, htw]
      have htry : rangeTryK ['/', e, f, g, h] 1 = none := by
        unfold rangeTryK
        simp [connP_dig he, rangeTryK, Option.orElse]
      rw [htry]
      rfl
    rw [hcore]
    rfl
  have e1 : rangeAt [b, c, d, '/', e, f, g, h] = none := by
    unfold rangeAt
    rw [litP_between_dig hb, rangeCore_nodig (digits4_sep_at4 isDig_slash)]
    rfl
  have e2 : rangeAt [c, d, '/', e, f, g, h] = none := by
    unfold rangeAt
    rw [litP_between_dig hc, rangeCore_nodig (by simp [digits4, isDig_slash])]
    rfl
  have e3 : rangeAt [d, '/', e, f, g, h] = none := by
    unfold rangeAt
    rw [litP_between_dig hd, rangeCore_nodig (by simp [digits4, isDig_slash])]
    rfl
  have e4 : rangeAt ['/', e, f, g, h] = none := by
    unfold rangeAt
    have hl : litP ['b', 'e', 't', 'w', 'e', 'e', 'n'] ('/' :: [e, f, g, h]) =
        none := by
      unfold litP
      rw [if_neg (by decide)]
    rw [hl, rangeCore_nodig (digits4_head_not isDig_slash)]
    rfl
  have e5 : rangeAt [e, f, g, h] = none := rangeAt_block he hf hg hh
  have e6 : rangeAt [f, g, h] = none :=
    rangeAt_short_dig (by simp) (by
      intro x hx
      simp only [List.mem_cons, List.not_mem_nil, or_false] at hx
      rcases hx with rfl | rfl | rfl <;> assumption)
  have e7 : rangeAt [g, h] = none :=
    rangeAt_short_dig (by simp) (by
      intro x hx
      simp only [List.mem_cons, List.not_mem_nil, or_false] at hx
      rcases hx with rfl | rfl <;> assumption)
  have e8 : rangeAt [h] = none :=
    rangeAt_short_dig (by simp) (by
      intro x hx
      simp only [List.mem_cons, List.not_mem_nil, or_false] at hx
      rcases hx with rfl
      assumption)
  have e9 : rangeAt [] = none := rfl
  show search rangeAt _ = none
  simp [search, e0, e1, e2, e3, e4, e5, e6, e7, e8, e9, Option.orElse]

/-- The `YYYY/YYYY` shape: the year-month pattern fails at every position. -/
theorem ymSearch_range9 {a b c d e f g h : Char} (ha : isDig a = true)
    (hb : isDig b = true) (hc : isDig c = true) (hd : isDig d = true)
    (he : isDig e = true) (hf : isDig f = true) (hg : isDig g = true)
    (hh : isDig h = true) :
    ymSearch [a, b, c, d, '/', e, f, g, h] = none := by
  have e0 : ymAt [a, b, c, d, '/', e, f, g, h] = none := by
    unfold ymAt
    have h1 : alt1 [a, b, c, d, '/', e, f, g, h] = none := by
      unfold alt1
      rw [digits4_cons4 ha hb hc hd]
      simp [List.dropWhile_cons, List.takeWhile_cons, ymClass, isWsC, wsNats,
        isAlphaC]
    rw [h1, alt2_head_not (not_isAlphaC_of_dig ha)]
    rfl
  have e1 : ymAt [b, c, d, '/', e, f, g, h] = none := by
    unfold ymAt
    rw [alt1_nodig (digits4_sep_at4 isDig_slash),
      alt2_head_not (not_isAlphaC_of_dig hb)]
    rfl
  have e2 : ymAt [c, d, '/', e, f, g, h] = none := by
    unfold ymAt
    rw [alt1_nodig (by simp [digits4, isDig_slash]),
      alt2_head_not (not_isAlphaC_of_dig hc)]
    rfl
  have e3 : ymAt [d, '/', e, f, g, h] = none := by
    unfold ymAt
    rw [alt1_nodig (by simp [digits4, isDig_slash]),
      alt2_head_not (not_isAlphaC_of_dig hd)]
    rfl
  have e4 : ymAt ['/', e, f, g, h] = none := by
    unfold ymAt
    rw [alt1_nodig (digits4_head_not isDig_slash), alt2_head_not (by decide)]
    rfl
  have e5 : ymAt [e, f, g, h] = none := ymAt_block he hf hg hh
  have e6 : ymAt [f, g, h] = none :=
    ymAt_short_dig (by simp) (by
      intro x hx
      simp only [List.mem_cons, List.not_mem_nil, or_false] at hx
      rcases hx with rfl | rfl | rfl <;> assumption)
  have e7 : ymAt [g, h] = none :=
    ymAt_short_dig (by simp) (by
      intro x hx
      simp only [List.mem_cons, List.not_mem_nil, or_false] at hx
      rcases hx with rfl | rfl <;> assumption)
  have e8 : ymAt [h] = none :=
    ymAt_short_dig (by simp) (by
      intro x hx
      simp only [List.mem_cons, List.not_mem_nil, or_false] at hx
      rcases hx with rfl
      assumption)
  have e9 : ymAt [] = none := rfl
  show search ymAt _ = none
  simp [search, e0, e1, e2, e3, e4, e5, e6, e7, e8, e9, Option.orElse]

/-- `YYYY/YYYY` re-parses to the bare first year. -/
theorem extractCore_range9 {a b c d e f g h : Char} (ha : isDig a = true)
    (hb : isDig b = true) (hc : isDig c = true) (hd : isDig d = true)
    (he : isDig e = true) (hf : isDig f = true) (hg : isDig g = true)
    (hh : isDig h = true) :
    extractCore [a, b, c, d, '/', e, f, g, h] = [a, b, c, d] := by
  unfold extractCore
  rw [fullDateSearch_range9 ha hb hc hd he hf hg hh,
    rangeSearch_range9 ha hb hc hd he hf hg hh,
    ymSearch_range9 ha hb hc hd he hf hg hh]
  have hy : yearSearch [a, b, c, d, '/', e, f, g, h] =
      some (1000 * dv a + 100 * dv b + 10 * dv c + dv d) := by
    show search yearAt _ = _
    simp [search, yearAt_cons4 ha hb hc hd, Option.orElse]
  rw [hy]
  exact format4_parse ha hb hc hd

/-- `YYYY-MM-DD` re-parses to itself: the full-date pattern matches at the
first position. -/
theorem extractCore_ymd10 {a b c d e f g h : Char} (ha : isDig a = true)
    (hb : isDig b = true) (hc : isDig c = true) (hd : isDig d = true)
    (he : isDig e = true) (hf : isDig f = true) (hg : isDig g = true)
    (hh : isDig h = true) :
    extractCore [a, b, c, d, '-', e, f, '-', g, h] =
      [a, b, c, d, '-', e, f, '-', g, h] := by
  have hmd : mdTail [e, f, '-', g, h] =
      some (10 * dv e + dv f, 10 * dv g + dv h) := by
    unfold mdTail
    have h2 : digits2 [e, f, '-', g, h] =
        some (10 * dv e + dv f, ['-', g, h]) := by
      simp [digits2, he, hf]
    rw [h2]
    have hdv : dayV [g, h] = some (10 * dv g + dv h) := by
      unfold dayV
      have h3 : digits2 [g, h] = some (10 * dv g + dv h, []) := by
        simp [digits2, hg, hh]
      rw [h3]
    simp [sepP_dash, hdv, Option.orElse]
  have e0 : fullDateAt [a, b, c, d, '-', e, f, '-', g, h] =
      some (1000 * dv a + 100 * dv b + 10 * dv c + dv d,
        10 * dv e + dv f, 10 * dv g + dv h) := by
    unfold fullDateAt
    rw [digits4_cons4 ha hb hc hd]
    simp [sepP_dash, hmd]
  have hfd : fullDateSearch [a, b, c, d, '-', e, f, '-', g, h] =
      some (1000 * dv a + 100 * dv b + 10 * dv c + dv d,
        10 * dv e + dv f, 10 * dv g + dv h) := by
    show search fullDateAt _ = _
    simp [search, e0, Option.orElse]
  unfold extractCore
  rw [hfd]
  dsimp only
  rw [format4_parse ha hb hc hd, format2_parse he hf, format2_parse hg hh]
  rfl

theorem lowerC_plain {c : Char} (h : plainC c) : lowerC c = c := by
  rcases h with h | h | h
  · exact lowerC_dig h
  · subst h; decide
  · subst h; decide

theorem map_lowerC_plain {l : List Char} (h : ∀ c ∈ l, plainC c) :
    l.map lowerC = l := by
  induction l with
  | nil => rfl
  | cons c r ih =>
    rw [List.map_cons, lowerC_plain (h c (by simp)),
      ih fun x hx => h x (List.mem_cons_of_mem _ hx)]

theorem cleanSub_plain {l : List Char} (h : ∀ c ∈ l, plainC c) :
    cleanSub l = l := by
  induction l with
  | nil => rfl
  | cons c r ih =>
    have hc := h c (by simp)
    have hkeep : cleanSub (c :: r) = c :: cleanSub r := by
      rcases hc with hd | hd | hd
      · exact cleanSub_dig hd
      · subst hd; exact cleanSub_keep (by decide) (by decide)
      · subst hd; exact cleanSub_keep (by decide) (by decide)
    rw [hkeep, ih fun x hx => h x (List.mem_cons_of_mem _ hx)]

theorem not_ws_plain {c : Char} (h : plainC c) : isWsC c = false := by
  rcases h with h | h | h
  · exact not_isWsC_of_dig h
  · subst h; decide
  · subst h; decide

theorem cleanOf_plain {l : List Char} (h : ∀ c ∈ l, plainC c) :
    cleanOf l = l := by
  unfold cleanOf
  rw [map_lowerC_plain h, cleanSub_plain h]
  exact trimmed_of_all_not_ws fun c hc => not_ws_plain (h c hc)

/-- Case analysis of the five canonical shapes. -/
theorem dateShape_cases {l : List Char} (h : dateShape l = true) :
    l = [] ∨
      (∃ a b c d, l = [a, b, c, d] ∧ isDig a = true ∧ isDig b = true ∧
        isDig c = true ∧ isDig d = true) ∨
      (∃ a b c d e f, l = [a, b, c, d, '-', e, f] ∧ isDig a = true ∧
        isDig b = true ∧ isDig c = true ∧ isDig d = true ∧ isDig e = true ∧
        isDig f = true) ∨
      (∃ a b c d e f g hh, l = [a, b, c, d, '/', e, f, g, hh] ∧
        isDig a = true ∧ isDig b = true ∧ isDig c = true ∧ isDig d = true ∧
        isDig e = true ∧ isDig f = true ∧ isDig g = true ∧
        isDig hh = true) ∨
      (∃ a b c d e f g hh, l = [a, b, c, d, '-', e, f, '-', g, hh] ∧
        isDig a = true ∧ isDig b = true ∧ isDig c = true ∧ isDig d = true ∧
        isDig e = true ∧ isDig f = true ∧ isDig g = true ∧
        isDig hh = true) := by
  rcases l with _ | ⟨a, _ | ⟨b, _ | ⟨c, _ | ⟨d, _ | ⟨s, _ | ⟨e, _ | ⟨f, _ |
    ⟨s2, _ | ⟨g, _ | ⟨hh, _ | ⟨x, rest⟩⟩⟩⟩⟩⟩⟩⟩⟩⟩⟩
  · exact Or.inl rfl
  · simp [dateShape] at h
  · simp [dateShape] at h
  · simp [dateShape] at h
  · simp only [dateShape, Bool.and_eq_true] at h
    exact Or.inr (Or.inl ⟨a, b, c, d, rfl, h.1.1.1, h.1.1.2, h.1.2, h.2⟩)
  · simp [dateShape] at h
  · simp [dateShape] at h
  · simp only [dateShape, Bool.and_eq_true, decide_eq_true_eq] at h
    obtain ⟨⟨⟨⟨⟨⟨ha, hb⟩, hc⟩, hd⟩, hs⟩, he⟩, hf⟩ := h
    subst hs
    exact Or.inr (Or.inr (Or.inl ⟨a, b, c, d, e, f, rfl, ha, hb, hc, hd, he, hf⟩))
  · simp [dateShape] at h
  · simp only [dateShape, Bool.and_eq_true, decide_eq_true_eq] at h
    obtain ⟨⟨⟨⟨⟨⟨⟨⟨ha, hb⟩, hc⟩, hd⟩, hs⟩, he⟩, hf⟩, hg2⟩, hg3⟩ := h
    subst hs
    exact Or.inr (Or.inr (Or.inr (Or.inl
      ⟨a, b, c, d, e, f, s2, g, rfl, ha, hb, hc, hd, he, hf, hg2, hg3⟩)))
  · simp only [dateShape, Bool.and_eq_true, decide_eq_true_eq] at h
    obtain ⟨⟨⟨⟨⟨⟨⟨⟨⟨ha, hb⟩, hc⟩, hd⟩, hs⟩, he⟩, hf⟩, hs2⟩, hg⟩, hhh⟩ := h
    subst hs
    subst hs2
    exact Or.inr (Or.inr (Or.inr (Or.inr
      ⟨a, b, c, d, e, f, g, hh, rfl, ha, hb, hc, hd, he, hf, hg, hhh⟩)))
  · simp [dateShape] at h

/-- C4 (amended).  Re-running `extract_dates` on its own output returns the
same string when the output is empty, a bare year `YYYY`, or a full date
`YYYY-MM-DD` (lengths 0, 4, 10); on a year-month `YYYY-MM` or a range
`YYYY/YYYY` (lengths 7, 9) it returns exactly the leading four-digit year
(in particular `extract_dates(["1941-09"]) = "1941"` and
`extract_dates(["1900/1905"]) = "1900"`); every output has one of these
five lengths. -/
theorem dateExtractor_idempotent_amended (c : List Frag) (s : String)
    (h : extractDates c = some s) :
    ∃ s2, extractDates [Frag.str s] = some s2 ∧
      (s.data.length = 0 ∨ s.data.length = 4 ∨ s.data.length = 7 ∨
        s.data.length = 9 ∨ s.data.length = 10) ∧
      ((s.data.length = 0 ∨ s.data.length = 4 ∨ s.data.length = 10) →
        s2 = s) ∧
      ((s.data.length = 7 ∨ s.data.length = 9) →
        s2 = String.mk (s.data.take 4)) := by
  have hshape : dateShape s.data = true := by
    unfold extractDates at h
    obtain ⟨t, hsel, hs⟩ := Option.map_eq_some'.mp h
    rw [← hs]
    exact extractCore_shape (cleanOf t)
  have hval : extractDates [Frag.str s] =
      some (String.mk (extractCore (cleanOf s.data))) := rfl
  have heta : String.mk s.data = s := rfl
  rcases dateShape_cases hshape with h0 |
    ⟨a, b, cc, d, hl, ha, hb, hc, hd⟩ |
    ⟨a, b, cc, d, e, f, hl, ha, hb, hc, hd, he, hf⟩ |
    ⟨a, b, cc, d, e, f, g, hh, hl, ha, hb, hc, hd, he, hf, hg, hhh⟩ |
    ⟨a, b, cc, d, e, f, g, hh, hl, ha, hb, hc, hd, he, hf, hg, hhh⟩
  · refine ⟨s, ?_, Or.inl (by rw [h0]; rfl), fun _ => rfl, fun hlen => ?_⟩
    · rw [hval, h0]
      rw [← heta, h0]
      rfl
    · rw [h0] at hlen
      simp at hlen
  · have hpl : ∀ x ∈ s.data, plainC x := by
      rw [hl]
      intro x hx
      simp only [List.mem_cons, List.not_mem_nil, or_false] at hx
      rcases hx with rfl | rfl | rfl | rfl <;> exact Or.inl (by assumption)
    refine ⟨s, ?_, Or.inr (Or.inl (by rw [hl]; rfl)), fun _ => rfl,
      fun hlen => ?_⟩
    · rw [hval, cleanOf_plain hpl, hl, extractCore_block ha hb hc hd, ← hl,
        heta]
    · rw [hl] at hlen
      simp at hlen
  · have hpl : ∀ x ∈ s.data, plainC x := by
      rw [hl]
      intro x hx
      simp only [List.mem_cons, List.not_mem_nil, or_false] at hx
      rcases hx with rfl | rfl | rfl | rfl | rfl | rfl | rfl
      · exact Or.inl ha
      · exact Or.inl hb
      · exact Or.inl hc
      · exact Or.inl hd
      · exact Or.inr (Or.inl rfl)
      · exact Or.inl he
      · exact Or.inl hf
    refine ⟨String.mk [a, b, cc, d], ?_,
      Or.inr (Or.inr (Or.inl (by rw [hl]; rfl))), fun hlen => ?_,
      fun _ => ?_⟩
    · rw [hval, cleanOf_plain hpl, hl, extractCore_ym7 ha hb hc hd he hf]
    · rw [hl] at hlen
      simp at hlen
    · rw [hl]
      rfl
  · have hpl : ∀ x ∈ s.data, plainC x := by
      rw [hl]
      intro x hx
      simp only [List.mem_cons, List.not_mem_nil, or_false] at hx
      rcases hx with rfl | rfl | rfl | rfl | rfl | rfl | rfl | rfl | rfl
      · exact Or.inl ha
      · exact Or.inl hb
      · exact Or.inl hc
      · exact Or.inl hd
      · exact Or.inr (Or.inr rfl)
      · exact Or.inl he
      · exact Or.inl hf
      · exact Or.inl hg
      · exact Or.inl hhh
    refine ⟨String.mk [a, b, cc, d], ?_,
      Or.inr (Or.inr (Or.inr (Or.inl (by rw [hl]; rfl)))), fun hlen => ?_,
      fun _ => ?_⟩
    · rw [hval, cleanOf_plain hpl, hl,
        extractCore_range9 ha hb hc hd he hf hg hhh]
    · rw [hl] at hlen
      simp at hlen
    · rw [hl]
      rfl
  · have hpl : ∀ x ∈ s.data, plainC x := by
      rw [hl]
      intro x hx
      simp only [List.mem_cons, List.not_mem_nil, or_false] at hx
      rcases hx with rfl | rfl | rfl | rfl | rfl | rfl | rfl | rfl | rfl | rfl
      · exact Or.inl ha
      · exact Or.inl hb
      · exact Or.inl hc
      · exact Or.inl hd
      · exact Or.inr (Or.inl rfl)
      · exact Or.inl he
      · exact Or.inl hf
      · exact Or.inr (Or.inl rfl)
      · exact Or.inl hg
      · exact Or.inl hhh
    refine ⟨s, ?_, Or.inr (Or.inr (Or.inr (Or.inr (by rw [hl]; rfl)))),
      fun _ => rfl, fun hlen => ?_⟩
    · rw [hval, cleanOf_plain hpl, hl,
        extractCore_ymd10 ha hb hc hd he hf hg hhh, ← hl, heta]
    · rw [hl] at hlen
      simp at hlen

/-- Witness for `dateExtractor_idempotent_amended` on a `YYYY-MM` output
and on a `YYYY/YYYY` output: both re-parse to the leading year. -/
theorem dateExtractor_idempotent_witness :
    (extractDates [Frag.str "Sept. 1941"] = some "1941-09" ∧
      extractDates [Frag.str "1941-09"] = some "1941") ∧
    (extractDates [Frag.str "between 1900 and 1905"] = some "1900/1905" ∧
      extractDates [Frag.str "1900/1905"] = some "1900") := by
  constructor
  · refine ⟨by decide, ?_⟩
    obtain ⟨s2, hs2, _, _, h79⟩ := dateExtractor_idempotent_amended
      [Frag.str "Sept. 1941"] "1941-09" (by decide)
    have h1 := h79 (Or.inl (by decide))
    rw [h1] at hs2
    rw [show String.mk ("1941-09".data.take 4) = "1941" from by decide] at hs2
    exact hs2
  · refine ⟨by decide, ?_⟩
    obtain ⟨s2, hs2, _, _, h79⟩ := dateExtractor_idempotent_amended
      [Frag.str "between 1900 and 1905"] "1900/1905" (by decide)
    have h1 := h79 (Or.inr (by decide))
    rw [h1] at hs2
    rw [show String.mk ("1900/1905".data.take 4) = "1900" from by decide]
      at hs2
    exact hs2

theorem NBlock_suffix {a b c d : Char} {u v : List Char}
    (h : NBlock a b c d u) (hv : v <:+ u) : NBlock a b c d v := by
  obtain ⟨p, q, rfl, hp, hq⟩ := h
  induction p with
  | nil =>
    simp only [List.nil_append] at hv
    exact ⟨[], v, by simp, by simp, hv.trans hq⟩
  | cons x p' ih =>
    rw [List.cons_append] at hv
    rcases List.suffix_cons_iff.mp hv with he | hr
    · exact ⟨x :: p', q, he, hp, hq⟩
    · exact ih hr fun y hy => hp y (List.mem_cons_of_mem _ hy)

theorem suffix_block_cases {a b c d : Char} {q : List Char}
    (h : q <:+ [a, b, c, d]) :
    q = [a, b, c, d] ∨ q = [b, c, d] ∨ q = [c, d] ∨ q = [d] ∨ q = [] := by
  rcases List.suffix_cons_iff.mp h with he | h2
  · exact Or.inl he
  rcases List.suffix_cons_iff.mp h2 with he | h3
  · exact Or.inr (Or.inl he)
  rcases List.suffix_cons_iff.mp h3 with he | h4
  · exact Or.inr (Or.inr (Or.inl he))
  rcases List.suffix_cons_iff.mp h4 with he | h5
  · exact Or.inr (Or.inr (Or.inr (Or.inl he)))
  · exact Or.inr (Or.inr (Or.inr (Or.inr (List.suffix_nil.mp h5))))

theorem digits4_NBlock {a b c d : Char} {u : List Char} {n : Nat}
    {r : List Char} (ha : isDig a = true) (hb : isDig b = true)
    (hc : isDig c = true) (hd : isDig d = true) (hu : NBlock a b c d u)
    (h : digits4 u = some (n, r)) : u = [a, b, c, d] ∧ r = [] := by
  obtain ⟨p, q, rfl, hp, hq⟩ := hu
  cases p with
  | cons x p' =>
    rw [List.cons_append] at h ⊢
    rw [digits4_head_not (hp x (by simp))] at h
    exact absurd h (by simp)
  | nil =>
    simp only [List.nil_append] at h ⊢
    rcases suffix_block_cases hq with rfl | rfl | rfl | rfl | rfl
    · rw [digits4_cons4 ha hb hc hd] at h
      injection h with h'
      injection h' with _ h2
      exact ⟨rfl, h2.symm⟩
    · rw [digits4_short (by simp)] at h
      exact absurd h (by simp)
    · rw [digits4_short (by simp)] at h
      exact absurd h (by simp)
    · rw [digits4_short (by simp)] at h
      exact absurd h (by simp)
    · exact absurd h (by simp [digits4])

theorem fullDateAt_NBlock {a b c d : Char} {u : List Char}
    (ha : isDig a = true) (hb : isDig b = true) (hc : isDig c = true)
    (hd : isDig d = true) (hu : NBlock a b c d u) : fullDateAt u = none := by
  rcases h : digits4 u with _ | ⟨n, r⟩
  · exact fullDateAt_nodig h
  · obtain ⟨rfl, rfl⟩ := digits4_NBlock ha hb hc hd hu h
    exact fullDateAt_block ha hb hc hd

theorem rangeCore_NBlock {a b c d : Char} {u : List Char}
    (ha : isDig a = true) (hb : isDig b = true) (hc : isDig c = true)
    (hd : isDig d = true) (hu : NBlock a b c d u) : rangeCore u = none := by
  rcases h : digits4 u with _ | ⟨n, r⟩
  · exact rangeCore_nodig h
  · obtain ⟨rfl, rfl⟩ := digits4_NBlock ha hb hc hd hu h
    exact rangeCore_block ha hb hc hd

theorem rangeAt_NBlock {a b c d : Char} {u : List Char}
    (ha : isDig a = true) (hb : isDig b = true) (hc : isDig c = true)
    (hd : isDig d = true) (hu : NBlock a b c d u) : rangeAt u = none := by
  unfold rangeAt
  have h2 : rangeCore u = none := rangeCore_NBlock ha hb hc hd hu
  rcases hl : litP ['b', 'e', 't', 'w', 'e', 'e', 'n'] u with _ | r0
  · rw [h2]
    rfl
  · have hr0 : NBlock a b c d (r0.dropWhile isWsC) :=
      NBlock_suffix hu ((List.dropWhile_suffix isWsC).trans (litP_suffix hl))
    dsimp only
    by_cases hemp : (r0.takeWhile isWsC).isEmpty = true
    · rw [if_pos hemp, h2]
      rfl
    · rw [if_neg hemp, rangeCore_NBlock ha hb hc hd hr0, h2]
      rfl

/-- `search` fails when the matcher fails at every suffix. -/
theorem search_none_of_all {α : Type} {m : List Char → Option α}
    {l : List Char} (h : ∀ u, u <:+ l → m u = none) : search m l = none := by
  induction l with
  | nil => exact h [] (List.suffix_refl [])
  | cons c r ih =>
    unfold search
    rw [h (c :: r) (List.suffix_refl _)]
    simp only [Option.orElse]
    exact ih fun u hu => h u (hu.trans (List.suffix_cons c r))

theorem fullDateSearch_NBlock {a b c d : Char} {l : List Char}
    (ha : isDig a = true) (hb : isDig b = true) (hc : isDig c = true)
    (hd : isDig d = true) (hl : NBlock a b c d l) :
    fullDateSearch l = none :=
  search_none_of_all fun u hu =>
    fullDateAt_NBlock ha hb hc hd (NBlock_suffix hl hu)

theorem rangeSearch_NBlock {a b c d : Char} {l : List Char}
    (ha : isDig a = true) (hb : isDig b = true) (hc : isDig c = true)
    (hd : isDig d = true) (hl : NBlock a b c d l) : rangeSearch l = none :=
  search_none_of_all fun u hu =>
    rangeAt_NBlock ha hb hc hd (NBlock_suffix hl hu)

theorem not_isDig_of_alpha {c : Char} (h : isAlphaC c = true) :
    isDig c = false := by
  simp only [isAlphaC, decide_eq_true_eq] at h
  simp only [isDig, decide_eq_false_iff_not]
  omega

theorem takeWhile_alpha_append {tk rest : List Char}
    (htk : ∀ x ∈ tk, isAlphaC x = true) :
    (tk ++ ' ' :: rest).takeWhile isAlphaC = tk := by
  induction tk with
  | nil => rw [List.nil_append, List.takeWhile_cons, if_neg (by decide)]
  | cons t tk' ih =>
    rw [List.cons_append, List.takeWhile_cons, htk t (by simp), if_pos rfl,
      ih fun x hx => htk x (List.mem_cons_of_mem _ hx)]

theorem dropWhile_alpha_append {tk rest : List Char}
    (htk : ∀ x ∈ tk, isAlphaC x = true) :
    (tk ++ ' ' :: rest).dropWhile isAlphaC = ' ' :: rest := by
  induction tk with
  | nil => rw [List.nil_append, List.dropWhile_cons, if_neg (by decide)]
  | cons t tk' ih =>
    rw [List.cons_append, List.dropWhile_cons, htk t (by simp), if_pos rfl]
    exact ih fun x hx => htk x (List.mem_cons_of_mem _ hx)

theorem ymClass_space : ymClass ' ' = true := by decide

theorem ymSearch_alpha_pre {tk : List Char} {a b c d : Char}
    (htk : ∀ x ∈ tk, isAlphaC x = true) (hne : tk ≠ [])
    (ha : isDig a = true) (hb : isDig b = true) (hc : isDig c = true)
    (hd : isDig d = true) :
    ymSearch (tk ++ ' ' :: [a, b, c, d]) =
      some (1000 * dv a + 100 * dv b + 10 * dv c + dv d, tk) := by
  cases tk with
  | nil => exact absurd rfl hne
  | cons t0 tk' =>
    have h2 : alt2 ((t0 :: tk') ++ ' ' :: [a, b, c, d]) =
        some (1000 * dv a + 100 * dv b + 10 * dv c + dv d, t0 :: tk') := by
      unfold alt2
      rw [takeWhile_alpha_append htk, dropWhile_alpha_append htk]
      rw [if_neg (by simp)]
      have hdw : List.dropWhile ymClass (' ' :: [a, b, c, d]) = [a, b, c, d] := by
        rw [List.dropWhile_cons, if_pos ymClass_space, List.dropWhile_cons,
          if_neg (by simp [ymClass_dig ha])]
      rw [hdw, digits4_cons4 ha hb hc hd]
      rfl
    have h1 : alt1 ((t0 :: tk') ++ ' ' :: [a, b, c, d]) = none := by
      rw [List.cons_append]
      exact alt1_nodig (digits4_head_not (not_isDig_of_alpha (htk t0 (by simp))))
    have h0 : ymAt ((t0 :: tk') ++ ' ' :: [a, b, c, d]) =
        some (1000 * dv a + 100 * dv b + 10 * dv c + dv d, t0 :: tk') := by
      unfold ymAt
      rw [h1, h2]
      rfl
    show search ymAt _ = _
    rw [List.cons_append, search]
    rw [List.cons_append] at h0
    rw [h0]
    rfl

/-- `extract_dates` on `letters ++ space ++ year` with an unresolvable
token: only the bare year survives. -/
theorem extractCore_alpha_pre_unres {tk : List Char} {a b c d : Char}
    (htk : ∀ x ∈ tk, isAlphaC x = true) (hne : tk ≠ [])
    (ha : isDig a = true) (hb : isDig b = true) (hc : isDig c = true)
    (hd : isDig d = true) (hm : monthNameToNumber tk = none) :
    extractCore (tk ++ ' ' :: [a, b, c, d]) = [a, b, c, d] := by
  have hNB : NBlock a b c d (tk ++ ' ' :: [a, b, c, d]) := by
    refine ⟨tk ++ [' '], [a, b, c, d], by simp, ?_, List.suffix_refl _⟩
    intro x hx
    rcases List.mem_append.mp hx with hx | hx
    · exact not_isDig_of_alpha (htk x hx)
    · simp only [List.mem_singleton] at hx
      subst hx
      decide
  unfold extractCore
  rw [fullDateSearch_NBlock ha hb hc hd hNB, rangeSearch_NBlock ha hb hc hd hNB,
    ymSearch_alpha_pre htk hne ha hb hc hd]
  dsimp only
  rw [hm]
  exact format4_parse ha hb hc hd

/-- Skipping a `c` whose successor is neither `a` nor a period. -/
theorem cleanSub_c_then {c2 : Char} {r : List Char} (h1 : ¬(c2 = 'a'))
    (h2 : ¬(c2 = '.')) : cleanSub ('c' :: c2 :: r) = cleanSub (c2 :: r) := by
  rw [cleanSub.eq_def]
  dsimp only
  rw [if_neg (by decide), if_pos rfl, if_neg h1, if_neg h2]

theorem lastNot_concat {p : Char → Bool} {l : List Char} {x : Char}
    (hx : p x = false) : lastNot p (l ++ [x]) := by
  unfold lastNot
  rw [List.getLast?_concat]
  exact hx

/-- General evaluation of `extract_dates` on a mangled month word followed
by a year. -/
theorem extractDates_mangled (w tk : List Char) (a b c d : Char)
    (ha : isDig a = true) (hb : isDig b = true) (hc : isDig c = true)
    (hd : isDig d = true)
    (hclean : cleanOf (w ++ [a, b, c, d]) = tk ++ ' ' :: [a, b, c, d])
    (htk : ∀ x ∈ tk, isAlphaC x = true) (hne : tk ≠ [])
    (hm : monthNameToNumber tk = none) :
    extractDates [Frag.str (String.mk (w ++ [a, b, c, d]))] =
      some (String.mk [a, b, c, d]) := by
  have hval : extractDates [Frag.str (String.mk (w ++ [a, b, c, d]))] =
      some (String.mk (extractCore (cleanOf (w ++ [a, b, c, d])))) := rfl
  rw [hval, hclean, extractCore_alpha_pre_unres htk hne ha hb hc hd hm]

theorem cleanOf_march {a b c d : Char} (ha : isDig a = true)
    (hb : isDig b = true) (hc : isDig c = true) (hd : isDig d = true) :
    cleanOf (['M', 'a', 'r', 'c', 'h', ' '] ++ [a, b, c, d]) =
      ['m', 'a', 'r', 'h'] ++ ' ' :: [a, b, c, d] := by
  have hdig : ∀ x ∈ [a, b, c, d], isDig x = true := by
    intro x hx
    simp only [List.mem_cons, List.not_mem_nil, or_false] at hx
    rcases hx with rfl | rfl | rfl | rfl <;> assumption
  unfold cleanOf
  rw [List.map_append, lowerC_digits hdig,
    show ['M', 'a', 'r', 'c', 'h', ' '].map lowerC =
      ['m', 'a', 'r', 'c', 'h', ' '] from by decide]
  have hcs : cleanSub (['m', 'a', 'r', 'c', 'h', ' '] ++ [a, b, c, d]) =
      ['m', 'a', 'r', 'h', ' '] ++ [a, b, c, d] := by
    show cleanSub ('m' :: 'a' :: 'r' :: 'c' :: 'h' :: ' ' :: [a, b, c, d]) = _
    rw [cleanSub_keep (by decide) (by decide),
      cleanSub_keep (by decide) (by decide),
      cleanSub_keep (by decide) (by decide),
      cleanSub_c_then (by decide) (by decide),
      cleanSub_keep (by decide) (by decide),
      cleanSub_keep (by decide) (by decide),
      cleanSub_digits hdig]
    rfl
  rw [hcs]
  refine trimmed_of ?_
    (@lastNot_concat isWsC ('m' :: 'a' :: 'r' :: 'h' :: ' ' :: [a, b, c]) d
      (not_isWsC_of_dig hd))
  show isWsC 'm' = false
  decide

theorem cleanOf_october {a b c d : Char} (ha : isDig a = true)
    (hb : isDig b = true) (hc : isDig c = true) (hd : isDig d = true) :
    cleanOf (['O', 'c', 't', 'o', 'b', 'e', 'r', ' '] ++ [a, b, c, d]) =
      ['o', 't', 'o', 'b', 'e', 'r'] ++ ' ' :: [a, b, c, d] := by
  have hdig : ∀ x ∈ [a, b, c, d], isDig x = true := by
    intro x hx
    simp only [List.mem_cons, List.not_mem_nil, or_false] at hx
    rcases hx with rfl | rfl | rfl | rfl <;> assumption
  unfold cleanOf
  rw [List.map_append, lowerC_digits hdig,
    show ['O', 'c', 't', 'o', 'b', 'e', 'r', ' '].map lowerC =
      ['o', 'c', 't', 'o', 'b', 'e', 'r', ' '] from by decide]
  have hcs : cleanSub (['o', 'c', 't', 'o', 'b', 'e', 'r', ' '] ++ [a, b, c, d]) =
      ['o', 't', 'o', 'b', 'e', 'r', ' '] ++ [a, b, c, d] := by
    show cleanSub
      ('o' :: 'c' :: 't' :: 'o' :: 'b' :: 'e' :: 'r' :: ' ' :: [a, b, c, d]) = _
    rw [cleanSub_keep (by decide) (by decide),
      cleanSub_c_then (by decide) (by decide),
      cleanSub_keep (by decide) (by decide),
      cleanSub_keep (by decide) (by decide),
      cleanSub_keep (by decide) (by decide),
      cleanSub_keep (by decide) (by decide),
      cleanSub_keep (by decide) (by decide),
      cleanSub_keep (by decide) (by decide),
      cleanSub_digits hdig]
    rfl
  rw [hcs]
  refine trimmed_of ?_
    (@lastNot_concat isWsC ('o' :: 't' :: 'o' :: 'b' :: 'e' :: 'r' :: ' ' :: [a, b, c])
      d (not_isWsC_of_dig hd))
  show isWsC 'o' = false
  decide

theorem cleanOf_december {a b c d : Char} (ha : isDig a = true)
    (hb : isDig b = true) (hc : isDig c = true) (hd : isDig d = true) :
    cleanOf (['D', 'e', 'c', 'e', 'm', 'b', 'e', 'r', ' '] ++ [a, b, c, d]) =
      ['d', 'e', 'e', 'm', 'b', 'e', 'r'] ++ ' ' :: [a, b, c, d] := by
  have hdig : ∀ x ∈ [a, b, c, d], isDig x = true := by
    intro x hx
    simp only [List.mem_cons, List.not_mem_nil, or_false] at hx
    rcases hx with rfl | rfl | rfl | rfl <;> assumption
  unfold cleanOf
  rw [List.map_append, lowerC_digits hdig,
    show ['D', 'e', 'c', 'e', 'm', 'b', 'e', 'r', ' '].map lowerC =
      ['d', 'e', 'c', 'e', 'm', 'b', 'e', 'r', ' '] from by decide]
  have hcs : cleanSub
      (['d', 'e', 'c', 'e', 'm', 'b', 'e', 'r', ' '] ++ [a, b, c, d]) =
      ['d', 'e', 'e', 'm', 'b', 'e', 'r', ' '] ++ [a, b, c, d] := by
    show cleanSub
      ('d' :: 'e' :: 'c' :: 'e' :: 'm' :: 'b' :: 'e' :: 'r' :: ' ' :: [a, b, c, d]) = _
    rw [cleanSub_keep (by decide) (by decide),
      cleanSub_keep (by decide) (by decide),
      cleanSub_c_then (by decide) (by decide),
      cleanSub_keep (by decide) (by decide),
      cleanSub_keep (by decide) (by decide),
      cleanSub_keep (by decide) (by decide),
      cleanSub_keep (by decide) (by decide),
      cleanSub_keep (by decide) (by decide),
      cleanSub_keep (by decide) (by decide),
      cleanSub_digits hdig]
    rfl
  rw [hcs]
  refine trimmed_of ?_
    (@lastNot_concat isWsC
      ('d' :: 'e' :: 'e' :: 'm' :: 'b' :: 'e' :: 'r' :: ' ' :: [a, b, c]) d
      (not_isWsC_of_dig hd))
  show isWsC 'd' = false
  decide

/-- C10.  The circa-deletion removes every `c`/`ca` (with optional period)
anywhere in the lowercased text, so month names containing a `c` reach
MonthNameResolver mangled (`march` → `marh`, `october` → `otober`,
`december` → `deember`), the month does not resolve, and for every
four-digit year the result is the bare `YYYY` instead of `YYYY-MM`. -/
theorem dateExtractor_c_mangling (a b c d : Char) (ha : isDig a = true)
    (hb : isDig b = true) (hc : isDig c = true) (hd : isDig d = true) :
    monthNameToNumber ['m', 'a', 'r', 'h'] = none ∧
    monthNameToNumber ['o', 't', 'o', 'b', 'e', 'r'] = none ∧
    monthNameToNumber ['d', 'e', 'e', 'm', 'b', 'e', 'r'] = none ∧
    cleanOf (['M', 'a', 'r', 'c', 'h', ' '] ++ [a, b, c, d]) =
      ['m', 'a', 'r', 'h'] ++ ' ' :: [a, b, c, d] ∧
    extractDates
        [Frag.str (String.mk (['M', 'a', 'r', 'c', 'h', ' '] ++ [a, b, c, d]))] =
      some (String.mk [a, b, c, d]) ∧
    extractDates
        [Frag.str (String.mk
          (['O', 'c', 't', 'o', 'b', 'e', 'r', ' '] ++ [a, b, c, d]))] =
      some (String.mk [a, b, c, d]) ∧
    extractDates
        [Frag.str (String.mk
          (['D', 'e', 'c', 'e', 'm', 'b', 'e', 'r', ' '] ++ [a, b, c, d]))] =
      some (String.mk [a, b, c, d]) := by
  refine ⟨by decide, by decide, by decide, cleanOf_march ha hb hc hd, ?_, ?_, ?_⟩
  · exact extractDates_mangled ['M', 'a', 'r', 'c', 'h', ' ']
      ['m', 'a', 'r', 'h'] a b c d ha hb hc hd (cleanOf_march ha hb hc hd)
      (by decide) (by decide) (by decide)
  · exact extractDates_mangled ['O', 'c', 't', 'o', 'b', 'e', 'r', ' ']
      ['o', 't', 'o', 'b', 'e', 'r'] a b c d ha hb hc hd
      (cleanOf_october ha hb hc hd) (by decide) (by decide) (by decide)
  · exact extractDates_mangled ['D', 'e', 'c', 'e', 'm', 'b', 'e', 'r', ' ']
      ['d', 'e', 'e', 'm', 'b', 'e', 'r'] a b c d ha hb hc hd
      (cleanOf_december ha hb hc hd) (by decide) (by decide) (by decide)

/-- Witness for `dateExtractor_c_mangling` at the year 1941. -/
theorem dateExtractor_c_mangling_witness :
    extractDates [Frag.str "March 1941"] = some "1941" ∧
      extractDates [Frag.str "October 1941"] = some "1941" ∧
      extractDates [Frag.str "December 1941"] = some "1941" := by
  obtain ⟨_, _, _, _, h1, h2, h3⟩ := dateExtractor_c_mangling '1' '9' '4' '1'
    (by decide) (by decide) (by decide) (by decide)
  exact ⟨h1, h2, h3⟩
